import Mathlib

/-!
Verification of the clilog-viewer log ingestion/normalization pipeline.

This development gives a shallow embedding of the core of the
`clilog-viewer` repository:

* `src/log_converter.py` — `extract_content`, `clean_text`,
  `ClaudeCliLogParser.parse_line`, `ToolDetector`, `LogDatabase`
  (`is_file_changed`, `register_file`, `clear_conversations_for_file`),
  `process_log_file_to_database`, `process_multiple_files_to_database`;
* `src/viewer/realtime_reader.py` — `JSONLFileReader.read_new_messages`
  and its helpers;
* `src/viewer/api/validators.py` — `sanitize_like_pattern`,
  `validate_and_sanitize_limit`;
* `src/viewer/api/database.py` — `search_messages`, `search_by_date_range`.

Modelling conventions:

* Python strings are Lean `String`/`List Char`; byte offsets are modelled
  as character offsets (examples are ASCII, where the two coincide).
* `json.loads` is modelled by an executable recursive-descent parser
  `jsonLoads` over a `JValue` inductive (integer numerals; the common
  string escapes; `\u` escapes and floats are outside the model).
* Functions that can raise return `Option`/`Except`; a result of `none`
  for the log-converter `extract_content` denotes the non-terminating
  self-recursion of the source (which surfaces as `RecursionError`).
* Loops are written with an explicit fuel argument so that every
  definition computes by `decide`/`rfl`; the fuel passed by the wrappers
  is always sufficient.
* SQLite is modelled relationally: tables are lists of rows,
  `INSERT OR REPLACE` deletes the conflicting row and inserts with a
  fresh rowid `max+1` (computed over the table before the delete, which
  is SQLite's allocation order), and `LIKE` uses SQLite's ASCII
  case-folding semantics with `ESCAPE`.
* SHA-256 is modelled as an injective fingerprint, represented by the
  file content itself.
-/

/-! ## Characters and strings -/

/-- Whitespace, as matched by the regex class `\s` and `str.strip`
(the ASCII portion: space, tab, newline, carriage return, form feed,
vertical tab). -/
def isSpace (c : Char) : Bool :=
  c == ' ' || c == '\t' || c == '\n' || c == '\r' || c == '\x0b' || c == '\x0c'

/-- Python `str.strip` on a character list: drop leading and trailing
whitespace. -/
def stripL (s : List Char) : List Char :=
  ((s.dropWhile isSpace).reverse.dropWhile isSpace).reverse

/-- Python `str.strip` on strings. -/
def pyStrip (s : String) : String :=
  ⟨stripL s.data⟩

/-- Does `pat` occur as a prefix of `s`? (`List.take`-based, kept
executable.) -/
def hasPref (pat s : List Char) : Bool :=
  s.take pat.length == pat

/-- First index at which `pat` occurs in `s`, if any. -/
def findSub : List Char → List Char → Option Nat
  | pat, [] => if pat == [] then some 0 else none
  | pat, c :: rest =>
    if hasPref pat (c :: rest) then some 0
    else (findSub pat rest).map (· + 1)

/-- Does `pat` occur anywhere in `s`? -/
def containsSub (s pat : List Char) : Bool :=
  (findSub pat s).isSome

/-- Python `pat in s` on strings. -/
def pyContains (s pat : String) : Bool :=
  containsSub s.data pat.data

/-- Python `str.lower` (ASCII portion). -/
def pyLower (s : String) : String :=
  ⟨s.data.map Char.toLower⟩

/-- Python `str.count`: number of non-overlapping occurrences of `pat`
(always called with nonempty `pat`) in `s`, scanning left to right.
The fuel argument makes the recursion structural; `countSub` passes
enough fuel for the scan to finish. -/
def countSubGo (pat : List Char) : Nat → List Char → Nat
  | 0, _ => 0
  | _ + 1, [] => 0
  | fuel + 1, c :: rest =>
    if hasPref pat (c :: rest) then
      countSubGo pat fuel ((c :: rest).drop pat.length) + 1
    else
      countSubGo pat fuel rest

/-- Python `str.count` for nonempty `pat`. -/
def countSub (s pat : List Char) : Nat :=
  countSubGo pat s.length s

/-- Split a character list at each newline; the separators are dropped.
This models both Python `str.split` on a newline and, composed with
`strip`, iteration over the lines of a text file. -/
def splitNl (s : List Char) : List (List Char) :=
  match s with
  | [] => [[]]
  | c :: rest =>
    if c == '\n' then [] :: splitNl rest
    else
      match splitNl rest with
      | [] => [[c]]
      | l :: ls => (c :: l) :: ls

/-- Iteration over the lines of a file in Python text mode: each yielded
line keeps its trailing newline; a final fragment without a newline is
still yielded. -/
def linesKeep : List Char → List (List Char)
  | [] => []
  | c :: rest =>
    if c == '\n' then ['\n'] :: linesKeep rest
    else
      match linesKeep rest with
      | [] => [[c]]
      | l :: ls => (c :: l) :: ls

/-- A single-quote character, used when rendering Python `repr`. -/
def sQuote : String := String.singleton (Char.ofNat 39)

/-- Zero-pad a numeral to two digits (for `strftime`). -/
def pad2 (n : Nat) : String :=
  if n < 10 then "0" ++ toString n else toString n

/-- Zero-pad a numeral to four digits (for `strftime`). -/
def pad4 (n : Nat) : String :=
  if n < 10 then "000" ++ toString n
  else if n < 100 then "00" ++ toString n
  else if n < 1000 then "0" ++ toString n
  else toString n

/-! ## JSON values (the result of `json.loads`) -/

/-- A Python value as produced by `json.loads`: `None`, booleans,
integers (floats are outside the model), strings, lists and dicts. -/
inductive JValue where
  | null : JValue
  | bool : Bool → JValue
  | num : Int → JValue
  | str : String → JValue
  | arr : List JValue → JValue
  | obj : List (String × JValue) → JValue

mutual

/-- Structural (Python `==`) equality on JSON values. -/
def jbeq : JValue → JValue → Bool
  | .null, .null => true
  | .bool a, .bool b => a == b
  | .num a, .num b => a == b
  | .str a, .str b => a == b
  | .arr xs, .arr ys => jbeqList xs ys
  | .obj fs, .obj gs => jbeqFields fs gs
  | _, _ => false

def jbeqList : List JValue → List JValue → Bool
  | [], [] => true
  | x :: xs, y :: ys => jbeq x y && jbeqList xs ys
  | _, _ => false

def jbeqFields : List (String × JValue) → List (String × JValue) → Bool
  | [], [] => true
  | (k, v) :: fs, (l, w) :: gs => k == l && jbeq v w && jbeqFields fs gs
  | _, _ => false

end

instance : BEq JValue := ⟨jbeq⟩

/-- Python `d.get(k, default)` / `k in d` lookup on a dict, first match. -/
def jGet : List (String × JValue) → String → Option JValue
  | [], _ => none
  | (k, v) :: rest, key => if k == key then some v else jGet rest key

/-- Python truthiness of a value. -/
def pyTruthy : JValue → Bool
  | .null => false
  | .bool b => b
  | .num n => n != 0
  | .str s => s != ""
  | .arr xs => !xs.isEmpty
  | .obj fs => !fs.isEmpty

mutual

/-- Python `repr` of a JSON-shaped value (dicts/lists render with
single-quoted strings; embedded quotes are not re-escaped in the
model). -/
def pyRepr : JValue → String
  | .null => "None"
  | .bool true => "True"
  | .bool false => "False"
  | .num n => toString n
  | .str s => sQuote ++ s ++ sQuote
  | .arr xs => "[" ++ pyReprList xs ++ "]"
  | .obj fs => "\x7b" ++ pyReprFields fs ++ "\x7d"

def pyReprList : List JValue → String
  | [] => ""
  | [x] => pyRepr x
  | x :: rest => pyRepr x ++ ", " ++ pyReprList rest

def pyReprFields : List (String × JValue) → String
  | [] => ""
  | [(k, v)] => sQuote ++ k ++ sQuote ++ ": " ++ pyRepr v
  | (k, v) :: rest =>
    sQuote ++ k ++ sQuote ++ ": " ++ pyRepr v ++ ", " ++ pyReprFields rest

end

/-- Python `str` of a value: strings render verbatim, everything else as
its `repr`. -/
def pyStr : JValue → String
  | .str s => s
  | v => pyRepr v

/-- JSON string escaping as done by `json.dumps` (with
`ensure_ascii=False`): the quote, backslash and control whitespace. -/
def jsonEscChar (c : Char) : String :=
  if c == '"' then "\\\""
  else if c == '\\' then "\\\\"
  else if c == '\n' then "\\n"
  else if c == '\t' then "\\t"
  else if c == '\r' then "\\r"
  else String.singleton c

/-- `json.dumps` of a string literal. -/
def jsonDumpStr (s : String) : String :=
  "\"" ++ String.join (s.data.map jsonEscChar) ++ "\""

/-- Two spaces of indentation per level. -/
def indentOf (ind : Nat) : String :=
  String.join (List.replicate ind "  ")

mutual

/-- `json.dumps(v, ensure_ascii=False, indent=2)`: pretty-printed JSON,
two-space indentation per level (`ind` is the current level). -/
def jsonDumps : Nat → JValue → String
  | _, .null => "null"
  | _, .bool true => "true"
  | _, .bool false => "false"
  | _, .num n => toString n
  | _, .str s => jsonDumpStr s
  | _, .arr [] => "[]"
  | ind, .arr (x :: xs) =>
    "[\n" ++ jsonDumpsList (ind + 1) (x :: xs) ++ "\n"
      ++ indentOf ind ++ "]"
  | _, .obj [] => "{}"
  | ind, .obj (f :: fs) =>
    "\x7b\n" ++ jsonDumpsFields (ind + 1) (f :: fs) ++ "\n"
      ++ indentOf ind ++ "\x7d"

def jsonDumpsList : Nat → List JValue → String
  | _, [] => ""
  | ind, [x] => indentOf ind ++ jsonDumps ind x
  | ind, x :: rest =>
    indentOf ind ++ jsonDumps ind x ++ ",\n" ++ jsonDumpsList ind rest

def jsonDumpsFields : Nat → List (String × JValue) → String
  | _, [] => ""
  | ind, [(k, v)] => indentOf ind ++ jsonDumpStr k ++ ": " ++ jsonDumps ind v
  | ind, (k, v) :: rest =>
    indentOf ind ++ jsonDumpStr k ++ ": " ++ jsonDumps ind v ++ ",\n"
      ++ jsonDumpsFields ind rest

end

/-! ## `json.loads` -/

/-- JSON inter-token whitespace. -/
def jWs (c : Char) : Bool :=
  c == ' ' || c == '\t' || c == '\n' || c == '\r'

/-- Skip JSON whitespace. -/
def jSkipWs (s : List Char) : List Char :=
  s.dropWhile jWs

/-- Decode one escape character of a JSON string literal (`\u` escapes
are outside the model and fail). -/
def jUnescape (e : Char) : Option Char :=
  if e == '"' then some '"'
  else if e == '\\' then some '\\'
  else if e == '/' then some '/'
  else if e == 'n' then some '\n'
  else if e == 't' then some '\t'
  else if e == 'r' then some '\r'
  else if e == 'b' then some '\x08'
  else if e == 'f' then some '\x0c'
  else none

/-- Parse the body of a JSON string literal, after the opening quote;
returns the decoded string and the input following the closing quote. -/
def jParseStr : Nat → List Char → Option (String × List Char)
  | 0, _ => none
  | _ + 1, [] => none
  | fuel + 1, c :: rest =>
    if c == '"' then some ("", rest)
    else if c == '\\' then
      match rest with
      | [] => none
      | e :: rest2 =>
        match jUnescape e with
        | some d =>
          (jParseStr fuel rest2).map (fun p => (String.singleton d ++ p.1, p.2))
        | none => none
    else
      (jParseStr fuel rest).map (fun p => (String.singleton c ++ p.1, p.2))

/-- Decimal digits to a natural number. -/
def digitsToNat (ds : List Char) : Nat :=
  ds.foldl (fun acc c => acc * 10 + (c.toNat - 48)) 0

/-- Parse a nonempty digit run. -/
def jParseNat (s : List Char) : Option (Nat × List Char) :=
  let ds := s.takeWhile Char.isDigit
  if ds.isEmpty then none else some (digitsToNat ds, s.drop ds.length)

mutual

/-- Recursive-descent parser for one JSON value (integers only among
numbers); returns the value and the remaining input. -/
def jParse : Nat → List Char → Option (JValue × List Char)
  | 0, _ => none
  | fuel + 1, s =>
    let s1 := jSkipWs s
    match s1 with
    | [] => none
    | c :: r =>
      if c == '{' then
        let r1 := jSkipWs r
        match r1 with
        | '}' :: r2 => some (.obj [], r2)
        | _ => (jParseFields fuel r1).map (fun p => (.obj p.1, p.2))
      else if c == '[' then
        let r1 := jSkipWs r
        match r1 with
        | ']' :: r2 => some (.arr [], r2)
        | _ => (jParseItems fuel r1).map (fun p => (.arr p.1, p.2))
      else if c == '"' then
        (jParseStr r.length r).map (fun p => (.str p.1, p.2))
      else if hasPref ['t', 'r', 'u', 'e'] s1 then
        some (.bool true, s1.drop 4)
      else if hasPref ['f', 'a', 'l', 's', 'e'] s1 then
        some (.bool false, s1.drop 5)
      else if hasPref ['n', 'u', 'l', 'l'] s1 then
        some (.null, s1.drop 4)
      else if c == '-' then
        (jParseNat r).map (fun p => (.num (-(p.1 : Int)), p.2))
      else
        (jParseNat s1).map (fun p => (.num (p.1 : Int), p.2))

/-- Parse the fields of a JSON object after the opening brace (nonempty
case), through the closing brace. -/
def jParseFields : Nat → List Char → Option (List (String × JValue) × List Char)
  | 0, _ => none
  | fuel + 1, s =>
    match jSkipWs s with
    | '"' :: r =>
      match jParseStr r.length r with
      | some (k, r1) =>
        match jSkipWs r1 with
        | ':' :: r3 =>
          match jParse fuel r3 with
          | some (v, r4) =>
            match jSkipWs r4 with
            | ',' :: r6 =>
              (jParseFields fuel r6).map (fun p => ((k, v) :: p.1, p.2))
            | '}' :: r6 => some ([(k, v)], r6)
            | _ => none
          | none => none
        | _ => none
      | none => none
    | _ => none

/-- Parse the items of a JSON array after the opening bracket (nonempty
case), through the closing bracket. -/
def jParseItems : Nat → List Char → Option (List JValue × List Char)
  | 0, _ => none
  | fuel + 1, s =>
    match jParse fuel s with
    | some (v, r) =>
      match jSkipWs r with
      | ',' :: r2 => (jParseItems fuel r2).map (fun p => (v :: p.1, p.2))
      | ']' :: r2 => some ([v], r2)
      | _ => none
    | none => none

end

/-- `json.loads`: parse a complete JSON document; trailing whitespace is
allowed, trailing junk is an error (`none` models `JSONDecodeError`). -/
def jsonLoads (s : String) : Option JValue :=
  match jParse (s.length + 1) s.data with
  | some (v, rest) => if (jSkipWs rest).isEmpty then some v else none
  | none => none

/-! ## `clean_text` (`log_converter.py` lines 362-379, identically
`JSONLFileReader._clean_text`) -/

/-- One application of `re.sub(r'<tag>.*?</tag>', '', text,
flags=re.DOTALL)`: scan left to right; at the first position where the
opening tag occurs and the closing tag occurs somewhere later, the
non-greedy match ends at the first closing tag; the match is deleted and
scanning resumes after it (matches are non-overlapping and the
replacement is not rescanned).  Positions where the opening tag occurs
but no closing tag follows cannot start a match.  Fuel makes the scan
structural; `removeTag` supplies `s.length`, which suffices since every
step consumes at least one character. -/
def removeTagGo (openT closeT : List Char) : Nat → List Char → List Char
  | 0, s => s
  | _ + 1, [] => []
  | fuel + 1, c :: rest =>
    if hasPref openT (c :: rest) then
      match findSub closeT ((c :: rest).drop openT.length) with
      | some j =>
        removeTagGo openT closeT fuel
          (((c :: rest).drop openT.length).drop (j + closeT.length))
      | none => c :: removeTagGo openT closeT fuel rest
    else c :: removeTagGo openT closeT fuel rest

/-- `re.sub` removal of `<tag>.*?</tag>` over the whole input. -/
def removeTag (tag : String) (s : List Char) : List Char :=
  removeTagGo (('<' :: tag.data) ++ ['>']) (('<' :: '/' :: tag.data) ++ ['>'])
    s.length s

/-- Backtracking search: try `f` at `n, n-1, …, 0` and return the first
success — the greedy order of a regex `\s*` quantifier. -/
def downFirst (f : Nat → Option Nat) : Nat → Option Nat
  | 0 => f 0
  | n + 1 =>
    match f (n + 1) with
    | some r => some r
    | none => downFirst f n

/-- Greedy match of the tail `\s*\n` of the blank-line regex against `t`:
the second `\s*` takes as many whitespace characters as possible while
still leaving a `\n`; returns the number of characters consumed. -/
def greedyWsNl (t : List Char) : Option Nat :=
  downFirst
    (fun j => if (t.drop j).head? == some '\n' then some (j + 1) else none)
    (t.takeWhile isSpace).length

/-- Greedy match of `\s*\n\s*\n` against `t` (what follows the leading
`\n` of the regex `\n\s*\n\s*\n`): the first `\s*` is as long as
possible subject to the rest of the pattern still matching. -/
def greedyTail (t : List Char) : Option Nat :=
  downFirst
    (fun i =>
      if (t.drop i).head? == some '\n' then
        (greedyWsNl (t.drop (i + 1))).map (fun m => i + 1 + m)
      else none)
    (t.takeWhile isSpace).length

/-- Leftmost-greedy match of `\n\s*\n\s*\n` at the head of `s`; returns
the length of the match. -/
def matchNl3 (s : List Char) : Option Nat :=
  match s with
  | '\n' :: t => (greedyTail t).map (fun n => n + 1)
  | _ => none

/-- `re.sub(r'\n\s*\n\s*\n', '\n\n', text)`: replace each
(non-overlapping, leftmost, greedy) match by two newlines.  Fuel makes
the scan structural; `collapseBlank` supplies `s.length`. -/
def collapseGo : Nat → List Char → List Char
  | 0, s => s
  | _ + 1, [] => []
  | fuel + 1, c :: rest =>
    match matchNl3 (c :: rest) with
    | some n => '\n' :: '\n' :: collapseGo fuel ((c :: rest).drop n)
    | none => c :: collapseGo fuel rest

/-- The blank-line collapsing substitution of `clean_text`. -/
def collapseBlank (s : List Char) : List Char :=
  collapseGo s.length s

/-- `clean_text` on character lists: remove the four markup regions (in
source order), collapse runs of three or more newlines, strip. -/
def cleanTextL (s : List Char) : List Char :=
  stripL (collapseBlank
    (removeTag ("system-reminder")
      (removeTag ("command-args")
        (removeTag ("command-name")
          (removeTag ("command-message") s)))))

/-- `clean_text` (`log_converter.py` lines 362-379). -/
def clean_text (s : String) : String :=
  if s == "" then "" else ⟨cleanTextL s.data⟩

/-! ## Timestamps (`convert_utc_to_jst`) -/

/-- Python `str.replace` (all non-overlapping occurrences, left to
right), via fuel; `pat` is nonempty at every call site. -/
def replaceGo (pat rep : List Char) : Nat → List Char → List Char
  | 0, s => s
  | _ + 1, [] => []
  | fuel + 1, c :: rest =>
    if hasPref pat (c :: rest) then
      rep ++ replaceGo pat rep fuel ((c :: rest).drop pat.length)
    else c :: replaceGo pat rep fuel rest

/-- Python `s.replace(pat, rep)`. -/
def pyReplace (s pat rep : String) : String :=
  ⟨replaceGo pat.data rep.data s.data.length s.data⟩

/-- Days since 1970-01-01 of a civil date (proleptic Gregorian). -/
def daysFromCivil (y : Int) (m d : Nat) : Int :=
  let yy : Int := if m ≤ 2 then y - 1 else y
  let era : Int := (if 0 ≤ yy then yy else yy - 399) / 400
  let yoe : Int := yy - era * 400
  let doy : Int :=
    (153 * (if 2 < m then (m : Int) - 3 else (m : Int) + 9) + 2) / 5
      + (d : Int) - 1
  let doe : Int := yoe * 365 + yoe / 4 - yoe / 100 + doy
  era * 146097 + doe - 719468

/-- Civil date of a day count since 1970-01-01. -/
def civilFromDays (z0 : Int) : Int × Nat × Nat :=
  let z : Int := z0 + 719468
  let era : Int := (if 0 ≤ z then z else z - 146096) / 146097
  let doe : Int := z - era * 146097
  let yoe : Int := (doe - doe / 1460 + doe / 36524 - doe / 146096) / 365
  let y : Int := yoe + era * 400
  let doy : Int := doe - (365 * yoe + yoe / 4 - yoe / 100)
  let mp : Int := (5 * doy + 2) / 153
  let d : Int := doy - (153 * mp + 2) / 5 + 1
  let m : Int := if mp < 10 then mp + 3 else mp - 9
  (if m ≤ 2 then y + 1 else y, m.toNat, d.toNat)

/-- Parse exactly two digits. -/
def parse2 : List Char → Option (Nat × List Char)
  | a :: b :: r =>
    if a.isDigit && b.isDigit then
      some ((a.toNat - 48) * 10 + (b.toNat - 48), r)
    else none
  | _ => none

/-- Parse exactly four digits. -/
def parse4 : List Char → Option (Nat × List Char)
  | a :: b :: c :: d :: r =>
    if a.isDigit && b.isDigit && c.isDigit && d.isDigit then
      some ((a.toNat - 48) * 1000 + (b.toNat - 48) * 100
        + (c.toNat - 48) * 10 + (d.toNat - 48), r)
    else none
  | _ => none

/-- Expect one specific character. -/
def expectCh (c : Char) : List Char → Option (List Char)
  | x :: r => if x == c then some r else none
  | _ => none

/-- `datetime.fromisoformat` as used on log timestamps (after the
`Z → +00:00` replacement): `YYYY-MM-DD(T| )HH:MM:SS[.f…][±HH:MM]`.
Returns (year, month, day, hour, minute, second, offset minutes).
Offset-less ("naive") timestamps are converted through the local system
time zone by `astimezone`, which is environment-dependent; the model
folds them into the failure case, as no claim depends on them. -/
def parseIso (s : List Char) : Option (Int × Nat × Nat × Nat × Nat × Nat × Int) :=
  match parse4 s with
  | none => none
  | some (y, r1) =>
    match expectCh '-' r1 with
    | none => none
    | some r2 =>
      match parse2 r2 with
      | none => none
      | some (mo, r3) =>
        match expectCh '-' r3 with
        | none => none
        | some r4 =>
          match parse2 r4 with
          | none => none
          | some (d, r5) =>
            match r5 with
            | sep :: r6 =>
              if sep == 'T' || sep == ' ' then
                match parse2 r6 with
                | none => none
                | some (h, r7) =>
                  match expectCh ':' r7 with
                  | none => none
                  | some r8 =>
                    match parse2 r8 with
                    | none => none
                    | some (mi, r9) =>
                      match expectCh ':' r9 with
                      | none => none
                      | some r10 =>
                        match parse2 r10 with
                        | none => none
                        | some (sec, r11) =>
                          let r12 :=
                            match r11 with
                            | '.' :: rf => rf.dropWhile Char.isDigit
                            | _ => r11
                          match r12 with
                          | sign :: r13 =>
                            if sign == '+' || sign == '-' then
                              match parse2 r13 with
                              | none => none
                              | some (oh, r14) =>
                                match expectCh ':' r14 with
                                | none => none
                                | some r15 =>
                                  match parse2 r15 with
                                  | none => none
                                  | some (om, r16) =>
                                    if r16.isEmpty && 1 ≤ mo && mo ≤ 12
                                        && 1 ≤ d && d ≤ 31 && h < 24
                                        && mi < 60 && sec < 60 then
                                      let off : Int := (oh : Int) * 60 + om
                                      some (y, mo, d, h, mi, sec,
                                        if sign == '-' then -off else off)
                                    else none
                            else none
                          | [] => none
              else none
            | [] => none

/-- Shift a parsed civil timestamp to UTC+9 and render it with
`strftime('%Y-%m-%d %H:%M:%S')`. -/
def toJstString (p : Int × Nat × Nat × Nat × Nat × Nat × Int) : String :=
  match p with
  | (y, mo, d, h, mi, sec, off) =>
    let total : Int :=
      daysFromCivil y mo d * 1440 + (h : Int) * 60 + (mi : Int) - off + 540
    let days : Int := total.fdiv 1440
    let minOfDay : Nat := (total.fmod 1440).toNat
    match civilFromDays days with
    | (y2, m2, d2) =>
      pad4 y2.toNat ++ "-" ++ pad2 m2 ++ "-" ++ pad2 d2 ++ " "
        ++ pad2 (minOfDay / 60) ++ ":" ++ pad2 (minOfDay % 60) ++ ":"
        ++ pad2 sec

/-- `convert_utc_to_jst` (`log_converter.py` lines 158-172): on any
parse failure the original string is returned. -/
def convert_utc_to_jst (ts : String) : String :=
  match parseIso (pyReplace ts ("Z") ("+00:00")).data with
  | some p => toJstString p
  | none => ts

/-- `convert_utc_to_jst` applied to an arbitrary timestamp value: a
non-string raises `AttributeError` at `.replace`, which the bare
`except` turns into the original-value fallback. -/
def dbConvertTs : JValue → JValue
  | .str s => .str (convert_utc_to_jst s)
  | v => v

/-- `JSONLFileReader._convert_utc_to_jst` (`realtime_reader.py` lines
194-208): identical parsing, but the fallback is the current wall-clock
time, supplied here as the parameter `now`. -/
def rtConvertUtcToJst (now ts : String) : String :=
  match parseIso (pyReplace ts ("Z") ("+00:00")).data with
  | some p => toJstString p
  | none => now

/-- The realtime converter applied to an arbitrary timestamp value. -/
def rtConvertTs (now : String) : JValue → String
  | .str s => rtConvertUtcToJst now s
  | _ => now

/-! ## `extract_content` -/

/-- Does `d.get(key)` equal the string `val`? -/
def jGetStrEq (fs : List (String × JValue)) (key val : String) : Bool :=
  match jGet fs key with
  | some (.str s) => s == val
  | _ => false

/-- The `tool_use` block built by `extract_content`. -/
def toolUseBlock (fs : List (String × JValue)) : String :=
  let toolName := (jGet fs ("name")).getD (.str "unknown")
  let toolInput := (jGet fs ("input")).getD (.obj [])
  "[ツール使用: " ++ pyStr toolName ++ "]\n```json\n"
    ++ jsonDumps 0 toolInput ++ "\n```"

/-- The `text_parts` list accumulated over a content list: `text` items
contribute their `text` value (which need not be a string), `tool_use`
items contribute the formatted block, everything else is skipped. -/
def extractParts : List JValue → List JValue
  | [] => []
  | item :: rest =>
    match item with
    | .obj fs =>
      if jGetStrEq fs ("type") ("text") then
        ((jGet fs ("text")).getD (.str "")) :: extractParts rest
      else if jGetStrEq fs ("type") ("tool_use") then
        .str (toolUseBlock fs) :: extractParts rest
      else extractParts rest
    | _ => extractParts rest

/-- `'\n'.join(text_parts)`: raises `TypeError` (modelled `none`) if any
collected part is not a string. -/
def joinStrParts : List JValue → Option String
  | [] => some ""
  | [.str s] => some s
  | .str s :: rest =>
    (joinStrParts rest).map (fun t => s ++ "\n" ++ t)
  | _ => none

/-- `extract_content` (`log_converter.py` lines 340-359).  `none` stands
for an exception escaping the function: the unbounded `extract_content(message)`
self-recursion on a dict with a `role` key but no `content` key (the
recursive call repeats the call with the *same* argument, so it can
never return — at runtime a `RecursionError`), or the `TypeError` of
joining a non-string `text` part. -/
def extract_content : JValue → Option String
  | .obj fs =>
    match jGet fs ("content") with
    | some (.arr items) => joinStrParts (extractParts items)
    | some (.str s) => some s
    | some _ => some (pyStr (.obj fs))
    | none =>
      match jGet fs ("role") with
      | some _ => none
      | none => some (pyStr (.obj fs))
  | v => some (pyStr v)

/-- `JSONLFileReader._extract_content` (`realtime_reader.py` lines
155-172): same content handling, but the fallback is
`str(message) if message else ""` and there is no self-recursion. -/
def rtExtractContent (m : JValue) : Option String :=
  match m with
  | .obj fs =>
    match jGet fs ("content") with
    | some (.arr items) => joinStrParts (extractParts items)
    | some (.str s) => some s
    | _ => some (if pyTruthy m then pyStr m else "")
  | _ => some (if pyTruthy m then pyStr m else "")

/-! ## `ClaudeCliLogParser.parse_line` and
`JSONLFileReader._parse_line` -/

/-- A canonical batch-mode message (`parse_line` result). -/
structure CMsg where
  timestamp : JValue
  role : String
  content : String
  tool_type : String

/-- `ClaudeCliLogParser.parse_line` (`log_converter.py` lines 449-483).
`none` covers: malformed JSON (`JSONDecodeError`, swallowed), a
non-dict line or non-dict `message` value (`AttributeError` from
`.get`, caught by the generic handler), an exception out of
`extract_content` (caught likewise), a role outside
`{user, assistant}`, and content empty before or after cleanup. -/
def claudeParseLine (line : String) : Option CMsg :=
  match jsonLoads (pyStrip line) with
  | none => none
  | some (.obj fs) =>
    let timestamp := (jGet fs ("timestamp")).getD (.str "")
    let userType := (jGet fs ("userType")).getD ((jGet fs ("type")).getD (.str ""))
    match (jGet fs ("message")).getD (.obj []) with
    | .obj mfs =>
      let role := (jGet mfs ("role")).getD userType
      match extract_content (.obj mfs) with
      | none => none
      | some content =>
        if (jbeq role (.str "user") || jbeq role (.str "assistant"))
            && content != "" then
          let cc := clean_text content
          if cc != "" then
            some ⟨dbConvertTs timestamp, pyStr role, cc, "claude"⟩
          else none
        else none
    | _ => none
  | some _ => none

/-- A realtime message (`_parse_line` result). -/
structure RMsg where
  timestamp : String
  role : String
  content : String
  session_id : JValue
  raw_data : JValue

/-- `JSONLFileReader._parse_line` (`realtime_reader.py` lines 119-153);
`now` stands for the current wall-clock time used by the timestamp
fallback. -/
def rtParseLine (now : String) (line : String) : Option RMsg :=
  match jsonLoads (pyStrip line) with
  | none => none
  | some (.obj fs) =>
    let timestamp := (jGet fs ("timestamp")).getD (.str "")
    let userType := (jGet fs ("userType")).getD ((jGet fs ("type")).getD (.str ""))
    let sessionId := (jGet fs ("sessionId")).getD (.str "")
    match (jGet fs ("message")).getD (.obj []) with
    | .obj mfs =>
      let role := (jGet mfs ("role")).getD userType
      match rtExtractContent (.obj mfs) with
      | none => none
      | some content =>
        if (jbeq role (.str "user") || jbeq role (.str "assistant"))
            && content != "" then
          let cc := clean_text content
          if cc != "" then
            some ⟨rtConvertTs now timestamp, pyStr role, cc, sessionId, .obj fs⟩
          else none
        else none
    | _ => none
  | some _ => none

/-! ## `JSONLFileReader.read_new_messages` -/

/-- The per-file tail state of `JSONLFileReader`: the stored read
cursor. -/
structure ReaderState where
  last_position : Nat
deriving DecidableEq

/-- `JSONLFileReader.read_new_messages` (`realtime_reader.py` lines
90-117).  The file is `none` when it does not exist, otherwise its
current content; `now` is the wall-clock parameter threaded to the
timestamp fallback.  Returns the new messages and the updated state:
the source returns `[]` with the cursor untouched whenever the current
size is at most the cursor, and otherwise parses every line of the
remainder — including a final line with no trailing newline — and
stores `f.tell()`, i.e. end of file, as the new cursor. -/
def read_new_messages (now : String) (file : Option (List Char))
    (st : ReaderState) : List RMsg × ReaderState :=
  match file with
  | none => ([], st)
  | some content =>
    if content.length ≤ st.last_position then ([], st)
    else
      let chunk := content.drop st.last_position
      let msgs := (splitNl chunk).filterMap (fun l =>
        let l2 := stripL l
        if l2.isEmpty then none else rtParseLine now ⟨l2⟩)
      (msgs, ⟨content.length⟩)

/-! ## `ToolDetector` (`log_converter.py` lines 52-140) -/

/-- `TOOL_PATTERNS`, in dict insertion order. -/
def toolPatterns : List (String × List String) :=
  [("claude", ["*/.claude/projects/**/*.jsonl", "**/*claude*.jsonl"]),
   ("copilot", ["**/copilot*.log", "**/github_copilot.log",
                "**/.vscode/copilot*.log"]),
   ("chatgpt", ["**/chatgpt*.json", "**/openai*.log", "**/gpt*.json"])]

/-- `TOOL_SIGNATURES`, in dict insertion order. -/
def toolSignatures : List (String × List String) :=
  [("claude", ["userType", "message", "role"]),
   ("copilot", ["completion", "telemetry", "completions"]),
   ("chatgpt", ["model", "choices", "usage", "gpt-"])]

/-- The body of the inner loop of `detect_by_path`: the "simple pattern
matching" applied to one pattern. -/
def patternHit (pathStr patternLower : String) : Bool :=
  (pyContains patternLower ("claude") && pyContains pathStr ("claude"))
  || (pyContains patternLower ("copilot") && pyContains pathStr ("copilot"))
  || ((pyContains patternLower ("chatgpt") || pyContains patternLower ("gpt"))
      && (pyContains pathStr ("chatgpt") || pyContains pathStr ("gpt")))

/-- `ToolDetector.detect_by_path`: first (tool, pattern) pair in
registration order whose pattern matches the lower-cased path. -/
def detect_by_path (filePath : String) : Option String :=
  let pathStr := pyLower filePath
  (toolPatterns.find? (fun tp =>
    tp.2.any (fun pattern => patternHit pathStr (pyLower pattern)))).map
    (fun tp => tp.1)

/-- Keyword score of one tool's signature set against the lower-cased
content sample. -/
def toolScore (sample : String) (sigs : List String) : Nat :=
  (sigs.map (fun sig => countSub sample.data (pyLower sig).data)).sum

/-- Python `max(scores.items(), key=...)` over the positive scores:
first entry with the (strictly) largest score wins, in insertion
order. -/
def pickMaxScore (scores : List (String × Nat)) : Option String :=
  match scores with
  | [] => none
  | s0 :: rest =>
    some (rest.foldl (fun best cur =>
      if best.2 < cur.2 then cur else best) s0).1

/-- The lower-cased sample of the first `sample_lines = 10` lines read
by `detect_by_content`. -/
def contentSample (content : String) : String :=
  pyLower ⟨((linesKeep content.data).take 10).flatten⟩

/-- The score `detect_by_content` computes for a named tool on a file's
content (0 for a tool without a signature entry). -/
def scoreOf (content tool : String) : Nat :=
  toolScore (contentSample content)
    (((toolSignatures.find? (fun ts => ts.1 == tool)).map
      (fun ts => ts.2)).getD [])

/-- `ToolDetector.detect_by_content`: `fileContent` is `none` when the
file cannot be read (the exception is caught and `None` returned);
otherwise each tool's signature occurrences are counted over the sample
and the first tool with the highest positive score wins. -/
def detect_by_content (fileContent : Option String) : Option String :=
  match fileContent with
  | none => none
  | some content =>
    pickMaxScore ((toolSignatures.map
      (fun ts => (ts.1, toolScore (contentSample content) ts.2))).filter
      (fun p => 0 < p.2))

/-- `ToolDetector.detect_tool_type`: manual override (when truthy, i.e.
a nonempty string), then path detection, then content detection, then
`'unknown'`. -/
def detect_tool_type (filePath : String) (manualOverride : Option String)
    (fileContent : Option String) : String :=
  match manualOverride with
  | some m =>
    if m != "" then m
    else
      match detect_by_path filePath with
      | some t => t
      | none =>
        match detect_by_content fileContent with
        | some t => t
        | none => "unknown"
  | none =>
    match detect_by_path filePath with
    | some t => t
    | none =>
      match detect_by_content fileContent with
      | some t => t
      | none => "unknown"

/-! ## `LogDatabase` (`log_converter.py` lines 185-302) and the batch
ingestion pipeline -/

/-- A file on disk, as seen by the converter: its path, its basename
(`Path.name`), content and integer modification time.  SHA-256 of the
content is modelled by the content itself (hashing is injective for the
purposes of change detection). -/
structure FSFile where
  path : String
  name : String
  content : String
  mtime : Int

/-- A row of the `log_files` table (`id INTEGER PRIMARY KEY, filename
TEXT UNIQUE, file_path, last_modified, file_hash`). -/
structure LogFileRow where
  id : Nat
  filename : String
  file_path : String
  last_modified : Int
  file_hash : String

/-- A row of the `conversations` table. -/
structure ConvRow where
  log_file_id : Nat
  role : String
  timestamp : JValue
  content : String
  filename : String
  tool_type : String

/-- The SQLite database: the two tables touched by ingestion. -/
structure Db where
  log_files : List LogFileRow
  conversations : List ConvRow

/-- The empty database (fresh schema). -/
def Db.empty : Db := ⟨[], []⟩

/-- `get_file_hash`: SHA-256 over the file bytes, modelled as the
content itself. -/
def get_file_hash (f : FSFile) : String := f.content

/-- `LogDatabase.is_file_changed` (lines 258-274): look up the stored
row by `file_path`; a path never seen is changed; otherwise changed iff
the hash differs or the integer mtime differs. -/
def is_file_changed (db : Db) (f : FSFile) : Bool :=
  match db.log_files.find? (fun r => r.file_path == f.path) with
  | none => true
  | some r => get_file_hash f != r.file_hash || f.mtime != r.last_modified

/-- `LogDatabase.register_file` (lines 276-288): `INSERT OR REPLACE`
keyed by the UNIQUE `filename` column.  SQLite allocates the new rowid
as `max(existing rowids) + 1` (computed before the conflicting row is
deleted), then deletes the row with the same `filename` and inserts;
the new id is returned (`cursor.lastrowid`).  In particular a
re-registered file always receives a fresh id. -/
def register_file (db : Db) (f : FSFile) : Nat × Db :=
  let newId := (db.log_files.map (fun r => r.id)).foldl max 0 + 1
  let kept := db.log_files.filter (fun r => r.filename != f.name)
  (newId,
    { db with log_files :=
        kept ++ [⟨newId, f.name, f.path, f.mtime, get_file_hash f⟩] })

/-- `LogDatabase.clear_conversations_for_file` (lines 290-293). -/
def clear_conversations_for_file (db : Db) (logFileId : Nat) : Db :=
  { db with conversations :=
      db.conversations.filter (fun r => r.log_file_id != logFileId) }

/-- The batched `INSERT INTO conversations` loop of
`process_log_file_to_database` (lines 773-790): the batching (100 rows
per `executemany`) only bounds transaction sizes; the inserted rows are
the messages in order. -/
def insert_messages (db : Db) (logFileId : Nat) (filename : String)
    (msgs : List CMsg) : Db :=
  { db with conversations :=
      db.conversations ++ msgs.map (fun m =>
        ⟨logFileId, m.role, m.timestamp, m.content, filename, m.tool_type⟩) }

/-- `process_log_file_to_database` (lines 713-797) for a file whose
parser and tool type have been resolved; `parsed` is the message list
produced by the parser over the file's lines, with `tool_type` already
overwritten by the detected tool type (line 744).  When no messages
were parsed the function returns success with zero count *without
touching the database* (lines 759-761); otherwise it registers the
file, clears the conversations of the (fresh) id and inserts the new
messages.  Result: (success, inserted count, database). -/
def process_log_file_to_database (db : Db) (f : FSFile)
    (parsed : List CMsg) : Bool × Nat × Db :=
  if parsed.isEmpty then (true, 0, db)
  else
    let (logFileId, db1) := register_file db f
    let db2 := clear_conversations_for_file db1 logFileId
    let db3 := insert_messages db2 logFileId f.name parsed
    (true, parsed.length, db3)

/-- Accumulated counters of `process_multiple_files_to_database`:
processed, skipped, conversations added. -/
structure BatchStats where
  processed : Nat
  skipped : Nat
  added : Nat
deriving DecidableEq

/-- The loop body of `process_multiple_files_to_database` (lines
978-1003): skip an unchanged file, otherwise process it and accumulate
the counters. -/
def pmfStep (acc : BatchStats × Db) (fp : FSFile × List CMsg) :
    BatchStats × Db :=
  let (st, d) := acc
  if !is_file_changed d fp.1 then
    ({ st with skipped := st.skipped + 1 }, d)
  else
    let (ok, cnt, d2) := process_log_file_to_database d fp.1 fp.2
    if ok then
      ({ st with processed := st.processed + 1, added := st.added + cnt }, d2)
    else (st, d2)

/-- `process_multiple_files_to_database` (lines 968-1008): for each file
in order, skip it when `is_file_changed` is false, otherwise run
`process_log_file_to_database`.  Parsing is supplied alongside each
file (`parsed` is what the resolved parser returns on the file's
content — the parser itself has no side effects on the database). -/
def process_multiple_files_to_database (db : Db)
    (files : List (FSFile × List CMsg)) : BatchStats × Db :=
  files.foldl pmfStep (⟨0, 0, 0⟩, db)

/-! ## `InputValidator` (`viewer/api/validators.py`) -/

/-- `ValidationError` with its message. -/
inductive ValidationError where
  | mk : String → ValidationError
deriving DecidableEq

/-- A Python argument that may or may not be an `int` (In Python the
`isinstance(limit, int)` guard). -/
inductive LimitArg where
  | int : Int → LimitArg
  | notInt : LimitArg

/-- `InputValidator.MAX_LIMIT`. -/
def MAX_LIMIT : Int := 5000

/-- `InputValidator.MAX_QUERY_LENGTH`. -/
def MAX_QUERY_LENGTH : Nat := 1000

/-- `InputValidator.validate_and_sanitize_limit` (lines 23-48): reject
non-integers and non-positive integers with `ValidationError`,
otherwise cap at `max_limit`. -/
def validate_and_sanitize_limit (limit : LimitArg)
    (maxLimit : Int := MAX_LIMIT) : Except ValidationError Int :=
  match limit with
  | .notInt => .error (.mk "limit must be an integer")
  | .int n =>
    if n ≤ 0 then .error (.mk "limit must be a positive integer")
    else .ok (min n maxLimit)

/-- `InputValidator.sanitize_like_pattern` (lines 72-103): empty query
passes through; over-long queries raise; otherwise escape `\`, `%`, `_`
(backslash first). -/
def sanitize_like_pattern (query : String) : Except ValidationError String :=
  if query == "" then .ok ""
  else if MAX_QUERY_LENGTH < query.length then
    .error (.mk "query too long")
  else
    .ok (pyReplace (pyReplace (pyReplace query ("\\") ("\\\\"))
      ("%") ("\\%")) ("_") ("\\_"))

/-! ## SQLite `LIKE ... ESCAPE '\'` -/

/-- SQLite's `LIKE` case folding: ASCII upper case maps to lower case,
everything else is itself. -/
def likeFold (c : Char) : Char :=
  if 65 ≤ c.toNat && c.toNat ≤ 90 then Char.ofNat (c.toNat + 32) else c

/-- SQLite `LIKE` with escape character `\`: `%` matches any sequence,
`_` any single character, an escaped character matches that character
(with the same ASCII case folding as ordinary characters); an escape at
the end of the pattern matches nothing.  Fuel-structured; each step
shrinks `pattern.length + s.length`, so the fuel passed by `sqlLike`
suffices. -/
def sqlLikeGo : Nat → List Char → List Char → Bool
  | 0, _, _ => false
  | _ + 1, [], s => s.isEmpty
  | fuel + 1, c :: p, s =>
    if c == '%' then
      sqlLikeGo fuel p s ||
        (match s with
         | [] => false
         | _ :: s2 => sqlLikeGo fuel (c :: p) s2)
    else if c == '_' then
      match s with
      | [] => false
      | _ :: s2 => sqlLikeGo fuel p s2
    else if c == '\\' then
      match p with
      | [] => false
      | e :: p2 =>
        match s with
        | [] => false
        | d :: s2 => likeFold e == likeFold d && sqlLikeGo fuel p2 s2
    else
      match s with
      | [] => false
      | d :: s2 => likeFold c == likeFold d && sqlLikeGo fuel p s2

/-- `text LIKE pattern ESCAPE '\'`. -/
def sqlLike (pattern s : List Char) : Bool :=
  sqlLikeGo (pattern.length + s.length + 1) pattern s

/-! ## `DatabaseManager.search_messages` / `search_by_date_range`
(`viewer/api/database.py` lines 166-256) -/

/-- SQLite `date(timestamp)` on a stored text timestamp: defined for
values of the stored shapes `YYYY-MM-DD` and `YYYY-MM-DD HH:MM:SS`
(beginning with four digits, dash, two digits, dash, two digits);
anything else is NULL, which fails every comparison. -/
def sqlDate (v : JValue) : Option String :=
  match v with
  | .str s =>
    match s.data with
    | y1 :: y2 :: y3 :: y4 :: '-' :: m1 :: m2 :: '-' :: d1 :: d2 :: rest =>
      if y1.isDigit && y2.isDigit && y3.isDigit && y4.isDigit
          && m1.isDigit && m2.isDigit && d1.isDigit && d2.isDigit
          && (rest.isEmpty || rest.head? == some ' '
              || rest.head? == some 'T') then
        some ⟨[y1, y2, y3, y4, '-', m1, m2, '-', d1, d2]⟩
      else none
    | _ => none
  | _ => none

/-- SQLite `datetime(timestamp)` as an ordering key: the normalized
`YYYY-MM-DD HH:MM:SS` string, or NULL for unparseable values. -/
def sqlDatetime (v : JValue) : Option String :=
  match sqlDate v, v with
  | some d, .str s =>
    if s.length = 10 then some (d ++ " 00:00:00")
    else some s
  | _, _ => none

/-- NULL-first comparison of `datetime` keys (SQLite NULLs sort before
any value; `ORDER BY … DESC` therefore puts them last). -/
def optKeyLe (a b : Option String) : Bool :=
  match a, b with
  | none, _ => true
  | some _, none => false
  | some x, some y => x ≤ y

/-- `ORDER BY datetime(timestamp) DESC` as a relation on rows. -/
def tsDescOrder (a b : ConvRow) : Prop :=
  optKeyLe (sqlDatetime b.timestamp) (sqlDatetime a.timestamp) = true

instance : DecidableRel tsDescOrder :=
  fun a b => decEq (optKeyLe (sqlDatetime b.timestamp) (sqlDatetime a.timestamp)) true

/-- `DatabaseManager.search_messages` (lines 166-216): sanitize the
query, validate the limit against `MAX_LIMIT`, then select the rows
whose content is `LIKE '%' + sanitized + '%' ESCAPE '\'` (optionally
also filtered by filename when `file_filter` is truthy), ordered by
`datetime(timestamp) DESC`, limited. -/
def search_messages (db : Db) (query : String) (fileFilter : Option String)
    (limit : LimitArg) : Except ValidationError (List ConvRow) :=
  match sanitize_like_pattern query with
  | .error e => .error e
  | .ok sanitized =>
    match validate_and_sanitize_limit limit MAX_LIMIT with
    | .error e => .error e
    | .ok vlimit =>
      let pattern := "%" ++ sanitized ++ "%"
      let useFilter := match fileFilter with
        | some f => f != ""
        | none => false
      let hits := db.conversations.filter (fun r =>
        sqlLike pattern.data r.content.data &&
          (!useFilter || r.filename == (fileFilter.getD "")))
      .ok ((hits.insertionSort tsDescOrder).take vlimit.toNat)

/-- `DatabaseManager.search_by_date_range` (lines 218-256): validate the
limit, then select rows with `date(timestamp)` between the bounds
(inclusive; NULL dates match nothing), ordered by
`datetime(timestamp) DESC`, limited. -/
def search_by_date_range (db : Db) (startDate endDate : String)
    (limit : LimitArg) : Except ValidationError (List ConvRow) :=
  match validate_and_sanitize_limit limit MAX_LIMIT with
  | .error e => .error e
  | .ok vlimit =>
    let hits := db.conversations.filter (fun r =>
      match sqlDate r.timestamp with
      | some d => startDate ≤ d && d ≤ endDate
      | none => false)
    .ok ((hits.insertionSort tsDescOrder).take vlimit.toNat)

/-! ## `BaseLogParser.parse_file` for the Claude parser, and concrete
inputs used in the statements below -/

/-- `BaseLogParser.parse_file` with `ClaudeCliLogParser.parse_line`
(`log_converter.py` lines 36-49): iterate the file's lines, skip blank
lines, collect the parsed messages. -/
def claude_parse_file (content : String) : List CMsg :=
  (linesKeep content.data).filterMap (fun l =>
    if (stripL l).isEmpty then none else claudeParseLine ⟨l⟩)

/-- A fixed wall-clock instant for the realtime reader's `now`
parameter. -/
def exNow : String := "2026-01-01 00:00:00"

/-- A well-formed Claude log line (no trailing newline). -/
def exLine : String :=
  "\x7b\"message\":\x7b\"role\":\"user\",\"content\":\"hi\"\x7d,\"timestamp\":\"2024-01-02T03:04:05+00:00\"\x7d"

/-- The messages of the first ingestion of the example file. -/
def exMsgOld : CMsg := ⟨.str "2024-01-01 00:00:00", "user", "old", "claude"⟩

/-- The messages of the re-ingestion after the file changed. -/
def exMsgNew : CMsg := ⟨.str "2024-01-02 00:00:00", "user", "new", "claude"⟩

/-- The example log file at its first fingerprint. -/
def exFileV1 : FSFile :=
  ⟨"/home/u/.claude/projects/p/a.jsonl", "a.jsonl", "v1", 1⟩

/-- The same path after its content (and hence fingerprint) changed. -/
def exFileV2 : FSFile :=
  ⟨"/home/u/.claude/projects/p/a.jsonl", "a.jsonl", "v2", 2⟩

/-- A JSONL file none of whose lines parses to a message. -/
def exBadFile : FSFile :=
  ⟨"/home/u/.claude/projects/p/x.jsonl", "x.jsonl", "not valid json\n", 1⟩

/-- A string on which `clean_text` is not idempotent: removing the
`system-reminder` region splices together a `command-message` region
that only the second pass removes. -/
def exSplice : String :=
  "<command<system-reminder>x</system-reminder>-message>Y</command-message>"

/-- A stored message whose content is `%A`. -/
def exRowPercentA : ConvRow :=
  ⟨1, "user", .str "2024-01-01 00:00:00", "%A", "a.jsonl", "claude"⟩

/-- A stored message whose content is `1000x`. -/
def exRow1000x : ConvRow :=
  ⟨1, "user", .str "2024-01-01 00:00:00", "1000x", "a.jsonl", "claude"⟩

/-- A two-message store for the search examples. -/
def exSearchDb : Db := ⟨[], [exRowPercentA, exRow1000x]⟩

/-- The database produced by the first batch ingestion of the example
file. -/
def exDbAfterFirst : Db :=
  (process_log_file_to_database Db.empty exFileV1 [exMsgOld]).2.2

/-- The database after the changed file is re-ingested. -/
def exDbAfterSecond : Db :=
  (process_log_file_to_database exDbAfterFirst exFileV2 [exMsgNew]).2.2

/-- A database holds a fresh, matching registration row for a file
(the invariant maintained by batch ingestion). -/
def GoodRow (d : Db) (f : FSFile) : Prop :=
  ∃ r, d.log_files.find? (fun rr => rr.file_path == f.path) = some r
    ∧ r.filename = f.name ∧ r.file_hash = get_file_hash f
    ∧ r.last_modified = f.mtime

/-- The per-character effect of the three `replace` calls of
`sanitize_like_pattern`: each of `\`, `%`, `_` gains a leading
backslash. -/
def escL : List Char → List Char
  | [] => []
  | c :: rest =>
    if c == '\\' || c == '%' || c == '_' then '\\' :: c :: escL rest
    else c :: escL rest

/-- ASCII-case-insensitive equality of two character lists (SQLite
`LIKE`'s character comparison, lifted to lists). -/
def ciEqL : List Char → List Char → Bool
  | [], [] => true
  | a :: as2, b :: bs => likeFold a == likeFold b && ciEqL as2 bs
  | _, _ => false

/-- Does `needle` occur at the head of `t`, up to ASCII case? -/
def hasPrefCI (needle t : List Char) : Bool :=
  ciEqL (t.take needle.length) needle

/-- ASCII-case-insensitive substring containment. -/
def containsCIL : List Char → List Char → Bool
  | [], needle => hasPrefCI needle []
  | c :: rest, needle => hasPrefCI needle (c :: rest) || containsCIL rest needle

/-- `needle` occurs in `hay` up to ASCII case — the relation that the
search predicate of `search_messages` actually decides. -/
def containsCI (hay needle : String) : Bool :=
  containsCIL hay.data needle.data

/-- Character-wise single-character replacement: the effect of
`str.replace(c, rep)` when the pattern is one character. -/
def replaceChar (p0 : Char) (rep : List Char) : List Char → List Char
  | [] => []
  | c :: rest => (if c == p0 then rep else [c]) ++ replaceChar p0 rep rest

/-- The escaped query produced by `sanitize_like_pattern` on a query of
admissible length. -/
def sanitizedOf (query : String) : String :=
  pyReplace (pyReplace (pyReplace query ("\\") ("\\\\")) ("%") ("\\%"))
    ("_") ("\\_")

/-- The LIKE pattern `search_messages` builds from a query. -/
def searchPattern (query : String) : String :=
  "%" ++ sanitizedOf query ++ "%"

/-! # Theorems -/

theorem validateLimit_ok_le (l : LimitArg) (v : Int)
    (h : validate_and_sanitize_limit l MAX_LIMIT = .ok v) : v ≤ 5000 := by
  cases l with
  | notInt => simp [validate_and_sanitize_limit] at h
  | int n =>
    simp only [validate_and_sanitize_limit] at h
    split at h
    · exact absurd h (by simp)
    · simp only [Except.ok.injEq] at h
      subst h
      exact min_le_right n MAX_LIMIT

/-- C5: `extract_content` applied to a dict that has a `role` key but no
`content` key reaches `return extract_content(message)` with the same
argument and therefore never terminates (a `RecursionError` at
runtime), contradicting the claim that it always terminates and returns
the string conversion of the whole object.  In the model the diverging
branch is `none`. -/
theorem C5_extract_content_role_only_diverges :
    extract_content (.obj [("role", .str "user")]) = none := rfl

/-- C1 (counterexample): a reader whose cursor is at byte 100 of a file
that now holds one 83-byte well-formed message line (i.e. the file was
rewritten shorter than the previously observed size) gets `[]` from
`read_new_messages` and keeps cursor 100 — the cursor is not reset to 0
and nothing is re-parsed, although parsing the file from the start
would yield one message. -/
theorem C1_truncated_file_returns_nothing :
    read_new_messages exNow (some (exLine ++ "\n").data) ⟨100⟩ = ([], ⟨100⟩)
    ∧ (100 : Nat) ≠ 0
    ∧ (read_new_messages exNow (some (exLine ++ "\n").data) ⟨0⟩).1.length = 1 := by
  refine ⟨rfl, by decide, ?_⟩
  decide

/-- C1 (amended): whenever the file's current size is at most the
stored cursor — in particular whenever the file was truncated below the
cursor — `read_new_messages` returns the empty list and leaves
`last_position` unchanged; there is no truncation detection and no
reset to 0. -/
theorem C1_no_truncation_reset (now : String) (content : List Char)
    (st : ReaderState) (h : content.length ≤ st.last_position) :
    read_new_messages now (some content) st = ([], st) := by
  simp [read_new_messages, h]

theorem C1_no_truncation_reset_witness :
    read_new_messages ("t") (some ("hi\n".data)) ⟨50⟩ = ([], ⟨50⟩) :=
  C1_no_truncation_reset ("t") ("hi\n".data) ⟨50⟩ (by decide)

/-- C3 (counterexample): a file consisting of one well-formed message
line *without* a trailing newline is not excluded by
`read_new_messages`: the incomplete final line is parsed and returned,
and the cursor advances to end of file (82) instead of staying at the
position after the last complete line (0). -/
theorem C3_incomplete_line_consumed :
    (read_new_messages exNow (some exLine.data) ⟨0⟩).1.length = 1
    ∧ ((read_new_messages exNow (some exLine.data) ⟨0⟩).1.map
        (fun m => (m.role, m.content)) = [("user", "hi")])
    ∧ (read_new_messages exNow (some exLine.data) ⟨0⟩).2.last_position = 82
    ∧ (82 : Nat) ≠ 0 := by
  refine ⟨by decide, by decide, by decide, by decide⟩

/-- C3 (amended): whenever the file has grown past the cursor,
`read_new_messages` consumes *all* remaining bytes — a final line
lacking a newline terminator included — and stores end of file as the
new cursor, so an unterminated final line is parsed now and never
returned by a later call. -/
theorem C3_cursor_advances_to_eof (now : String) (content : List Char)
    (st : ReaderState) (h : st.last_position < content.length) :
    (read_new_messages now (some content) st).2.last_position
      = content.length := by
  simp only [read_new_messages]
  rw [if_neg (by omega)]

theorem C3_cursor_advances_to_eof_witness :
    (read_new_messages ("t") (some ("ab".data)) ⟨0⟩).2.last_position = 2 :=
  C3_cursor_advances_to_eof ("t") ("ab".data) ⟨0⟩ (by decide)

/-- C2: re-ingesting the example file after its fingerprint changed
(`is_file_changed` is true) does *not* leave the store with exactly the
new parse: `register_file`'s `INSERT OR REPLACE` allocates a fresh
rowid (2), so `clear_conversations_for_file(2)` deletes nothing and the
old message (still under the orphaned id 1, same filename) survives
next to the new one. -/
theorem C2_reingestion_leaves_old_messages :
    is_file_changed exDbAfterFirst exFileV2 = true
    ∧ (exDbAfterSecond.conversations.map
        (fun r => (r.log_file_id, r.content, r.filename))
        = [(1, "old", "a.jsonl"), (2, "new", "a.jsonl")])
    ∧ (exDbAfterSecond.log_files.map (fun r => (r.id, r.filename))
        = [(2, "a.jsonl")]) := by
  refine ⟨by decide, by decide, by decide⟩

/-- C10: `validate_and_sanitize_limit` returns `min(limit, 5000)` for
positive integers and raises `ValidationError` otherwise, and
consequently `search_messages` and `search_by_date_range` never return
more than 5000 rows. -/
theorem C10_limit_cap :
    (∀ n : Int, 0 < n →
      validate_and_sanitize_limit (.int n) MAX_LIMIT = .ok (min n 5000))
    ∧ (∀ n : Int, n ≤ 0 →
      ∃ e, validate_and_sanitize_limit (.int n) MAX_LIMIT = .error e)
    ∧ (∃ e, validate_and_sanitize_limit .notInt MAX_LIMIT = .error e)
    ∧ (∀ db q ff l rows, search_messages db q ff l = .ok rows →
        rows.length ≤ 5000)
    ∧ (∀ db s e l rows, search_by_date_range db s e l = .ok rows →
        rows.length ≤ 5000) := by
  refine ⟨?_, ?_, ?_, ?_, ?_⟩
  · intro n hn
    simp [validate_and_sanitize_limit, MAX_LIMIT, not_le.mpr hn]
  · intro n hn
    refine ⟨.mk ("limit must be a positive integer"), ?_⟩
    simp [validate_and_sanitize_limit, hn]
  · exact ⟨_, rfl⟩
  · intro db q ff l rows h
    simp only [search_messages] at h
    split at h
    · exact absurd h (by simp)
    · split at h
      · exact absurd h (by simp)
      · rename_i v hv
        simp only [Except.ok.injEq] at h
        subst h
        calc (List.take v.toNat _).length ≤ v.toNat := by
              simp [List.length_take_le]
          _ ≤ 5000 := by
              have := validateLimit_ok_le l v hv
              omega
  · intro db s e l rows h
    simp only [search_by_date_range] at h
    split at h
    · exact absurd h (by simp)
    · rename_i v hv
      simp only [Except.ok.injEq] at h
      subst h
      calc (List.take v.toNat _).length ≤ v.toNat := by
            simp [List.length_take_le]
        _ ≤ 5000 := by
            have := validateLimit_ok_le l v hv
            omega

theorem C10_limit_cap_witness :
    validate_and_sanitize_limit (.int 7) MAX_LIMIT = .ok (min 7 5000)
    ∧ ∃ rows, search_messages Db.empty ("x") none (.int 9999) = .ok rows
        ∧ rows.length ≤ 5000 :=
  ⟨C10_limit_cap.1 7 (by decide),
    ⟨_, rfl, C10_limit_cap.2.2.2.1 Db.empty ("x") none (.int 9999) _ rfl⟩⟩

theorem foldMax_spec (l : List (String × Nat)) (init : String × Nat) :
    (l.foldl (fun best cur => if best.2 < cur.2 then cur else best) init = init
      ∨ l.foldl (fun best cur => if best.2 < cur.2 then cur else best) init ∈ l)
    ∧ init.2 ≤ (l.foldl (fun best cur => if best.2 < cur.2 then cur else best) init).2
    ∧ ∀ p ∈ l, p.2 ≤ (l.foldl (fun best cur => if best.2 < cur.2 then cur else best) init).2 := by
  induction l generalizing init with
  | nil => simp
  | cons a rest ih =>
    simp only [List.foldl_cons]
    obtain ⟨hmem, hinit, hall⟩ := ih (if init.2 < a.2 then a else init)
    refine ⟨?_, ?_, ?_⟩
    · rcases hmem with h | h
      · rw [h]
        split
        · exact Or.inr (List.mem_cons_self a rest)
        · exact Or.inl rfl
      · exact Or.inr (List.mem_cons_of_mem a h)
    · refine le_trans ?_ hinit
      split
      · next hlt => exact le_of_lt hlt
      · exact le_refl _
    · intro p hp
      rcases List.mem_cons.mp hp with h | h
      · subst h
        refine le_trans ?_ hinit
        split
        · exact le_refl _
        · next hnlt => omega
      · exact hall p h

theorem pickMaxScore_spec (l : List (String × Nat)) (t : String)
    (h : pickMaxScore l = some t) :
    ∃ n, (t, n) ∈ l ∧ ∀ p ∈ l, p.2 ≤ n := by
  cases l with
  | nil => simp [pickMaxScore] at h
  | cons s0 rest =>
    simp only [pickMaxScore, Option.some.injEq] at h
    obtain ⟨hmem, hinit, hall⟩ := foldMax_spec rest s0
    refine ⟨(rest.foldl (fun best cur => if best.2 < cur.2 then cur else best) s0).2,
      ?_, ?_⟩
    · rcases hmem with hm | hm
      · rw [← h, hm]
        exact hm ▸ List.mem_cons_self s0 rest
      · have : (t, (rest.foldl (fun best cur => if best.2 < cur.2 then cur else best) s0).2)
            = rest.foldl (fun best cur => if best.2 < cur.2 then cur else best) s0 := by
          rw [← h]
        rw [this]
        exact List.mem_cons_of_mem s0 hm
    · intro p hp
      rcases List.mem_cons.mp hp with hm | hm
      · subst hm
        exact hinit
      · exact hall p hm

theorem detect_by_content_max (content : String) (t : String)
    (h : detect_by_content (some content) = some t) :
    0 < scoreOf content t
    ∧ scoreOf content ("claude") ≤ scoreOf content t
    ∧ scoreOf content ("copilot") ≤ scoreOf content t
    ∧ scoreOf content ("chatgpt") ≤ scoreOf content t := by
  simp only [detect_by_content] at h
  obtain ⟨n, hmem, hall⟩ := pickMaxScore_spec _ t h
  have hmem2 := List.mem_filter.mp hmem
  have hpos : 0 < n := by
    have := hmem2.2
    simpa using this
  have hmap := hmem2.1
  simp only [toolSignatures, List.map_cons, List.map_nil, List.mem_cons,
    List.not_mem_nil, or_false, Prod.mk.injEq] at hmap
  have hboundOf : ∀ tool sigs, (tool, sigs) ∈ toolSignatures →
      toolScore (contentSample content) sigs ≤ n := by
    intro tool sigs hts
    by_cases hz : 0 < toolScore (contentSample content) sigs
    · refine hall (tool, toolScore (contentSample content) sigs)
        (List.mem_filter.mpr ⟨?_, by simpa using hz⟩)
      exact List.mem_map.mpr ⟨(tool, sigs), hts, rfl⟩
    · omega
  have hcl := hboundOf ("claude") ["userType", "message", "role"] (by simp [toolSignatures])
  have hco := hboundOf ("copilot") ["completion", "telemetry", "completions"] (by simp [toolSignatures])
  have hch := hboundOf ("chatgpt") ["model", "choices", "usage", "gpt-"] (by simp [toolSignatures])
  rcases hmap with ⟨ht, hn⟩ | ⟨ht, hn⟩ | ⟨ht, hn⟩ <;>
    subst ht <;>
    refine ⟨by simpa [scoreOf, toolSignatures, hn] using hpos, ?_, ?_, ?_⟩ <;>
    simp [scoreOf, toolSignatures, ← hn] <;>
    first
      | exact hcl
      | exact hco
      | exact hch

/-- C9: `detect_tool_type` returns the manual override when a nonempty
one is supplied; otherwise the path-fragment detection result when it
fires; otherwise the content-based detection result, which is always a
tool with the (first) highest strictly positive keyword score over the
ten-line sample; otherwise `'unknown'` — also for unreadable files
(modelled by `none` content, for which the caught exception yields no
content detection); and the three concrete scenarios hold. -/
theorem C9_detect_tool_type_resolution :
    (∀ p c (m : String), m ≠ "" → detect_tool_type p (some m) c = m)
    ∧ (∀ p c t, detect_by_path p = some t → detect_tool_type p none c = t)
    ∧ (∀ p c t, detect_by_path p = none → detect_by_content c = some t →
        detect_tool_type p none c = t)
    ∧ (∀ p c, detect_by_path p = none → detect_by_content c = none →
        detect_tool_type p none c = "unknown")
    ∧ (∀ content t, detect_by_content (some content) = some t →
        0 < scoreOf content t
        ∧ scoreOf content ("claude") ≤ scoreOf content t
        ∧ scoreOf content ("copilot") ≤ scoreOf content t
        ∧ scoreOf content ("chatgpt") ≤ scoreOf content t)
    ∧ (∀ c, detect_tool_type (".claude/projects/abc/x.jsonl") none c = "claude")
    ∧ (∀ c, detect_tool_type ("copilot.log") none c = "copilot")
    ∧ detect_tool_type ("random.txt") none none = "unknown"
    ∧ detect_tool_type ("random.txt") none (some ("hello world\n")) = "unknown" := by
  refine ⟨?_, ?_, ?_, ?_, ?_, ?_, ?_, ?_, ?_⟩
  · intro p c m hm
    simp [detect_tool_type, hm]
  · intro p c t h
    simp [detect_tool_type, h]
  · intro p c t h1 h2
    simp [detect_tool_type, h1, h2]
  · intro p c h1 h2
    simp [detect_tool_type, h1, h2]
  · exact detect_by_content_max
  · intro c
    have h : detect_by_path (".claude/projects/abc/x.jsonl") = some "claude" := by
      decide
    simp [detect_tool_type, h]
  · intro c
    have h : detect_by_path ("copilot.log") = some "copilot" := by decide
    simp [detect_tool_type, h]
  · decide
  · decide

theorem C9_detect_tool_type_resolution_witness :
    detect_tool_type ("x.log") (some ("chatgpt")) none = "chatgpt"
    ∧ 0 < scoreOf ("userType role message\n") ("claude") := by
  refine ⟨C9_detect_tool_type_resolution.1 ("x.log") none ("chatgpt") (by decide), ?_⟩
  have h : detect_by_content (some ("userType role message\n")) = some "claude" := by
    decide
  exact (C9_detect_tool_type_resolution.2.2.2.2.1 ("userType role message\n")
    ("claude") h).1

theorem jbeq_str_iff (v : JValue) (s : String) :
    jbeq v (.str s) = true ↔ v = .str s := by
  cases v <;> simp [jbeq]

/-- C7: whenever `ClaudeCliLogParser.parse_line` returns a message, its
role is in the closed set `{user, assistant}` and its content is
nonempty after cleanup; lines with any other resolved role, or whose
content cleans to the empty string, produce no message (they fall into
the `none` branches of the same definition). -/
theorem C7_parse_line_role_and_content (line : String) (m : CMsg)
    (h : claudeParseLine line = some m) :
    (m.role = "user" ∨ m.role = "assistant") ∧ m.content ≠ "" := by
  simp only [claudeParseLine] at h
  split at h
  · exact absurd h (by simp)
  · next fs =>
    split at h
    · next mfs _ =>
      split at h
      · exact absurd h (by simp)
      · next content hex =>
        split at h
        · next hcond =>
          split at h
          · next hcc =>
            simp only [Option.some.injEq] at h
            subst h
            simp only [Bool.and_eq_true, Bool.or_eq_true] at hcond
            constructor
            · rcases hcond.1 with hr | hr
              · rw [(jbeq_str_iff _ _).mp hr]
                exact Or.inl rfl
              · rw [(jbeq_str_iff _ _).mp hr]
                exact Or.inr rfl
            · simpa using hcc
          · exact absurd h (by simp)
        · exact absurd h (by simp)
    · exact absurd h (by simp)
  · exact absurd h (by simp)

theorem C7_parse_line_role_and_content_witness :
    ∃ m, claudeParseLine exLine = some m
      ∧ (m.role = "user" ∨ m.role = "assistant") ∧ m.content ≠ "" :=
  ⟨_, rfl, C7_parse_line_role_and_content exLine _ rfl⟩

/-- C4 (counterexample): a file none of whose lines parses to a message
is *returned early* by `process_log_file_to_database` without being
registered, so running batch ingestion twice on `[exBadFile]` leaves
`is_file_changed` true on the second run and the file is processed
again, not counted as skipped — the second run's skipped count is 0,
not 1 (no messages are inserted either time, though). -/
theorem C4_unparsed_file_never_skipped :
    claude_parse_file exBadFile.content = []
    ∧ is_file_changed
        (process_multiple_files_to_database Db.empty [(exBadFile, [])]).2
        exBadFile = true
    ∧ (process_multiple_files_to_database
        (process_multiple_files_to_database Db.empty [(exBadFile, [])]).2
        [(exBadFile, [])]).1.skipped = 0 := by
  refine ⟨rfl, by decide, by decide⟩

theorem find?_filter_of_find? {α : Type} (l : List α) (p q : α → Bool)
    (r : α) (h : l.find? p = some r) (hq : q r = true) :
    (l.filter q).find? p = some r := by
  induction l with
  | nil => simp at h
  | cons a rest ih =>
    by_cases hpa : p a = true
    · rw [List.find?_cons_of_pos rest hpa] at h
      simp only [Option.some.injEq] at h
      subst h
      rw [List.filter_cons_of_pos hq, List.find?_cons_of_pos _ hpa]
    · rw [List.find?_cons_of_neg rest hpa] at h
      by_cases hqa : q a = true
      · rw [List.filter_cons_of_pos hqa, List.find?_cons_of_neg _ hpa]
        exact ih h
      · rw [List.filter_cons_of_neg (by simpa using hqa)]
        exact ih h

theorem find?_append_left {α : Type} (l1 l2 : List α) (p : α → Bool)
    (r : α) (h : l1.find? p = some r) : (l1 ++ l2).find? p = some r := by
  rw [List.find?_append, h]
  rfl

theorem is_file_changed_false_of_good (d : Db) (f : FSFile)
    (h : GoodRow d f) : is_file_changed d f = false := by
  obtain ⟨r, hfind, hname, hhash, hmtime⟩ := h
  simp [is_file_changed, hfind, hhash, hmtime]

theorem pmfStep_preserves_good (st : BatchStats) (d : Db) (f : FSFile)
    (g : FSFile × List CMsg) (hname : g.1.name ≠ f.name)
    (hgood : GoodRow d f) : GoodRow (pmfStep (st, d) g).2 f := by
  obtain ⟨r, hfind, hrname, hhash, hmtime⟩ := hgood
  simp only [pmfStep]
  split
  · exact ⟨r, hfind, hrname, hhash, hmtime⟩
  · simp only [process_log_file_to_database]
    split
    · exact ⟨r, hfind, hrname, hhash, hmtime⟩
    · refine ⟨r, ?_, hrname, hhash, hmtime⟩
      simp only [register_file, insert_messages, clear_conversations_for_file]
      refine find?_append_left _ _ _ _ ?_
      refine find?_filter_of_find? _ _ _ _ hfind ?_
      simp [hrname]
      exact fun hc => hname hc.symm

theorem foldl_pmfStep_preserves_good (files : List (FSFile × List CMsg))
    (st : BatchStats) (d : Db) (f : FSFile) :
    (∀ g ∈ files, g.1.name ≠ f.name) → GoodRow d f →
    GoodRow (files.foldl pmfStep (st, d)).2 f := by
  induction files generalizing st d with
  | nil => exact fun _ hgood => hgood
  | cons g rest ih =>
    intro hname hgood
    simp only [List.foldl_cons]
    have hstep := pmfStep_preserves_good st d f g
      (hname g (List.mem_cons_self g rest)) hgood
    have hrw : pmfStep (st, d) g
        = ((pmfStep (st, d) g).1, (pmfStep (st, d) g).2) := rfl
    rw [hrw]
    exact ih _ _ (fun g2 hg2 => hname g2 (List.mem_cons_of_mem g hg2)) hstep

theorem foldl_pmfStep_registers (files : List (FSFile × List CMsg)) :
    ∀ (st : BatchStats) (d : Db),
    (files.map (fun p => p.1.name)).Nodup →
    (files.map (fun p => p.1.path)).Nodup →
    (∀ p ∈ files, p.2 ≠ []) →
    (∀ p ∈ files, ∀ r ∈ d.log_files, r.file_path ≠ p.1.path) →
    ∀ fp ∈ files, GoodRow (files.foldl pmfStep (st, d)).2 fp.1 := by
  induction files with
  | nil => intro st d _ _ _ _ fp hfp; simp at hfp
  | cons g rest ih =>
    intro st d hn hp hm hfresh fp hfp
    simp only [List.map_cons, List.nodup_cons] at hn hp
    -- the head file is changed (no row with its path) and has messages,
    -- so the step registers it
    have hchanged : is_file_changed d g.1 = true := by
      have : d.log_files.find? (fun rr => rr.file_path == g.1.path) = none := by
        rw [List.find?_eq_none]
        intro r hr
        simpa using hfresh g (List.mem_cons_self g rest) r hr
      simp [is_file_changed, this]
    have hgm : g.2 ≠ [] := hm g (List.mem_cons_self g rest)
    have hproc : process_log_file_to_database d g.1 g.2
        = (true, g.2.length,
           ⟨(d.log_files.filter (fun r => r.filename != g.1.name))
              ++ [⟨(d.log_files.map (fun r => r.id)).foldl max 0 + 1,
                   g.1.name, g.1.path, g.1.mtime, get_file_hash g.1⟩],
            (d.conversations.filter (fun r =>
              r.log_file_id
                != (d.log_files.map (fun r => r.id)).foldl max 0 + 1))
              ++ g.2.map (fun m =>
                ⟨(d.log_files.map (fun r => r.id)).foldl max 0 + 1,
                 m.role, m.timestamp, m.content, g.1.name, m.tool_type⟩)⟩) := by
      simp only [process_log_file_to_database]
      rw [if_neg (by simpa using hgm)]
      simp [register_file, clear_conversations_for_file, insert_messages]
    have hstep : pmfStep (st, d) g
        = (⟨st.processed + 1, st.skipped, st.added + g.2.length⟩,
           (process_log_file_to_database d g.1 g.2).2.2) := by
      simp only [pmfStep, hchanged, Bool.not_true, hproc]
      simp [hproc]
    have hd2 : (process_log_file_to_database d g.1 g.2).2.2
        = ⟨(d.log_files.filter (fun r => r.filename != g.1.name))
             ++ [⟨(d.log_files.map (fun r => r.id)).foldl max 0 + 1,
                  g.1.name, g.1.path, g.1.mtime, get_file_hash g.1⟩],
           (d.conversations.filter (fun r =>
             r.log_file_id
               != (d.log_files.map (fun r => r.id)).foldl max 0 + 1))
             ++ g.2.map (fun m =>
               ⟨(d.log_files.map (fun r => r.id)).foldl max 0 + 1,
                m.role, m.timestamp, m.content, g.1.name, m.tool_type⟩)⟩ := by
      rw [hproc]
    -- database after the head step, with g registered last
    rcases List.mem_cons.mp hfp with hfg | hrest
    · -- fp is the head: its fresh row survives the rest of the fold
      subst hfg
      simp only [List.foldl_cons, hstep]
      refine foldl_pmfStep_preserves_good rest _ _ _ ?_ ?_
      · intro g2 hg2 hceq
        exact hn.1 (List.mem_map.mpr ⟨g2, hg2, hceq⟩)
      · refine ⟨⟨(d.log_files.map (fun r => r.id)).foldl max 0 + 1,
          fp.1.name, fp.1.path, fp.1.mtime, get_file_hash fp.1⟩,
          ?_, rfl, rfl, rfl⟩
        rw [hd2]
        simp only
        rw [List.find?_append]
        have hleft : ((d.log_files.filter (fun r => r.filename != fp.1.name)).find?
            (fun rr => rr.file_path == fp.1.path)) = none := by
          rw [List.find?_eq_none]
          intro r hr
          have hmem := (List.mem_filter.mp hr).1
          simpa using hfresh fp (List.mem_cons_self fp rest) r hmem
        rw [hleft]
        simp
    · -- fp comes later: apply the induction hypothesis to the new db
      simp only [List.foldl_cons, hstep]
      refine ih _ _ hn.2 hp.2 (fun p hp2 => hm p (List.mem_cons_of_mem g hp2))
        ?_ fp hrest
      intro p hp2 r hr
      rw [hd2] at hr
      simp only [List.mem_append] at hr
      rcases hr with hr | hr
      · exact hfresh p (List.mem_cons_of_mem g hp2) r (List.mem_filter.mp hr).1
      · simp only [List.mem_singleton] at hr
        subst hr
        simp only
        intro hceq
        exact hp.1 (List.mem_map.mpr ⟨p, hp2, hceq.symm⟩)

theorem foldl_pmfStep_skip_all (files : List (FSFile × List CMsg))
    (st : BatchStats) (d : Db)
    (h : ∀ fp ∈ files, is_file_changed d fp.1 = false) :
    files.foldl pmfStep (st, d)
      = ({ st with skipped := st.skipped + files.length }, d) := by
  induction files generalizing st with
  | nil => simp
  | cons fp rest ih =>
    have hf := h fp (List.mem_cons_self fp rest)
    simp only [List.foldl_cons, pmfStep, hf, Bool.not_false, if_pos]
    rw [ih _ (fun p hp => h p (List.mem_cons_of_mem fp hp))]
    simp only [List.length_cons, Prod.mk.injEq, BatchStats.mk.injEq,
      and_true, true_and]
    omega

/-- C4 (amended): when the input files have pairwise distinct basenames
and pairwise distinct paths and every file parses to at least one
message, running batch ingestion twice in a row from a fresh store
makes the second run skip every file (`is_file_changed` false) and add
zero messages, leaving the store untouched; and a path with no stored
`log_files` row is always "changed".  (Without the distinct-basename or
at-least-one-message provisos the original claim fails, see the
counterexample.) -/
theorem C4_second_run_all_skipped (files : List (FSFile × List CMsg))
    (hn : (files.map (fun p => p.1.name)).Nodup)
    (hp : (files.map (fun p => p.1.path)).Nodup)
    (hm : ∀ p ∈ files, p.2 ≠ []) :
    process_multiple_files_to_database
        (process_multiple_files_to_database Db.empty files).2 files
      = (⟨0, files.length, 0⟩,
         (process_multiple_files_to_database Db.empty files).2)
    ∧ ∀ (db : Db) (f : FSFile),
        db.log_files.find? (fun r => r.file_path == f.path) = none →
        is_file_changed db f = true := by
  constructor
  · have hgood := foldl_pmfStep_registers files ⟨0, 0, 0⟩ Db.empty hn hp hm
      (by intro p _ r hr; simp [Db.empty] at hr)
    have hskip : ∀ fp ∈ files,
        is_file_changed (process_multiple_files_to_database Db.empty files).2
          fp.1 = false := by
      intro fp hfp
      exact is_file_changed_false_of_good _ _ (hgood fp hfp)
    have := foldl_pmfStep_skip_all files ⟨0, 0, 0⟩
      (process_multiple_files_to_database Db.empty files).2 hskip
    simpa [process_multiple_files_to_database] using this
  · intro db f h
    simp [is_file_changed, h]

theorem C4_second_run_all_skipped_witness :
    (process_multiple_files_to_database
      (process_multiple_files_to_database Db.empty
        [(exFileV1, [exMsgOld])]).2
      [(exFileV1, [exMsgOld])]).1 = ⟨0, 1, 0⟩ := by
  have h := (C4_second_run_all_skipped [(exFileV1, [exMsgOld])]
    (by decide) (by decide)
    (by intro p hp; simp only [List.mem_singleton] at hp; simp [hp])).1
  rw [h]
  rfl


theorem sqlLikeGo_fuel_eq :
    ∀ (k f1 f2 : Nat) (p s : List Char), p.length + s.length ≤ k →
      p.length + s.length < f1 → p.length + s.length < f2 →
      sqlLikeGo f1 p s = sqlLikeGo f2 p s := by
  intro k
  induction k with
  | zero =>
    intro f1 f2 p s hk h1 h2
    obtain ⟨n1, rfl⟩ : ∃ n, f1 = n + 1 := ⟨f1 - 1, by omega⟩
    obtain ⟨n2, rfl⟩ : ∃ n, f2 = n + 1 := ⟨f2 - 1, by omega⟩
    cases p with
    | nil => rfl
    | cons c p2 => simp at hk
  | succ k ih =>
    intro f1 f2 p s hk h1 h2
    obtain ⟨n1, rfl⟩ : ∃ n, f1 = n + 1 := ⟨f1 - 1, by omega⟩
    obtain ⟨n2, rfl⟩ : ∃ n, f2 = n + 1 := ⟨f2 - 1, by omega⟩
    cases p with
    | nil => rfl
    | cons c p2 =>
      simp only [List.length_cons] at hk h1 h2
      simp only [sqlLikeGo]
      by_cases hc1 : c == '%'
      · rw [if_pos hc1, if_pos hc1]
        cases s with
        | nil =>
          show (sqlLikeGo n1 p2 [] || false) = (sqlLikeGo n2 p2 [] || false)
          rw [ih n1 n2 p2 []
            (by simp only [List.length_nil] at hk ⊢; omega)
            (by simp only [List.length_nil] at h1 ⊢; omega)
            (by simp only [List.length_nil] at h2 ⊢; omega)]
        | cons d s2 =>
          show (sqlLikeGo n1 p2 (d :: s2) || sqlLikeGo n1 (c :: p2) s2)
            = (sqlLikeGo n2 p2 (d :: s2) || sqlLikeGo n2 (c :: p2) s2)
          rw [ih n1 n2 p2 (d :: s2)
            (by simp only [List.length_cons] at hk ⊢; omega)
            (by simp only [List.length_cons] at h1 ⊢; omega)
            (by simp only [List.length_cons] at h2 ⊢; omega)]
          rw [ih n1 n2 (c :: p2) s2
            (by simp only [List.length_cons] at hk ⊢; omega)
            (by simp only [List.length_cons] at h1 ⊢; omega)
            (by simp only [List.length_cons] at h2 ⊢; omega)]
      · rw [if_neg hc1, if_neg hc1]
        by_cases hc2 : c == '_'
        · rw [if_pos hc2, if_pos hc2]
          cases s with
          | nil => rfl
          | cons d s2 =>
            show sqlLikeGo n1 p2 s2 = sqlLikeGo n2 p2 s2
            rw [ih n1 n2 p2 s2
              (by simp only [List.length_cons] at hk ⊢; omega)
              (by simp only [List.length_cons] at h1 ⊢; omega)
              (by simp only [List.length_cons] at h2 ⊢; omega)]
        · rw [if_neg hc2, if_neg hc2]
          by_cases hc3 : c == '\\'
          · rw [if_pos hc3, if_pos hc3]
            cases p2 with
            | nil => rfl
            | cons e p3 =>
              cases s with
              | nil => rfl
              | cons d s2 =>
                show ((likeFold e == likeFold d) && sqlLikeGo n1 p3 s2)
                  = ((likeFold e == likeFold d) && sqlLikeGo n2 p3 s2)
                rw [ih n1 n2 p3 s2
                  (by simp only [List.length_cons] at hk ⊢; omega)
                  (by simp only [List.length_cons] at h1 ⊢; omega)
                  (by simp only [List.length_cons] at h2 ⊢; omega)]
          · rw [if_neg hc3, if_neg hc3]
            cases s with
            | nil => rfl
            | cons d s2 =>
              show ((likeFold c == likeFold d) && sqlLikeGo n1 p2 s2)
                = ((likeFold c == likeFold d) && sqlLikeGo n2 p2 s2)
              rw [ih n1 n2 p2 s2
                (by simp only [List.length_cons] at hk ⊢; omega)
                (by simp only [List.length_cons] at h1 ⊢; omega)
                (by simp only [List.length_cons] at h2 ⊢; omega)]

/-- Replace the fuel of a `sqlLikeGo` call by the canonical one. -/
theorem sqlLikeGo_eq_sqlLike (f : Nat) (p s : List Char)
    (h : p.length + s.length < f) : sqlLikeGo f p s = sqlLike p s :=
  sqlLikeGo_fuel_eq (p.length + s.length) f (p.length + s.length + 1) p s
    le_rfl h (by omega)

theorem sqlLike_percent (p s : List Char) :
    sqlLike ('%' :: p) s
      = (sqlLike p s
          || match s with
             | [] => false
             | _ :: s2 => sqlLike ('%' :: p) s2) := by
  cases s with
  | nil =>
    show (sqlLikeGo (('%' :: p).length + ([] : List Char).length) p [] || false)
      = (sqlLike p [] || false)
    rw [sqlLikeGo_eq_sqlLike _ _ _ (by simp)]
  | cons d s2 =>
    show (sqlLikeGo (('%' :: p).length + (d :: s2).length) p (d :: s2)
        || sqlLikeGo (('%' :: p).length + (d :: s2).length) ('%' :: p) s2)
      = (sqlLike p (d :: s2) || sqlLike ('%' :: p) s2)
    rw [sqlLikeGo_eq_sqlLike _ _ _ (by simp only [List.length_cons]; omega),
      sqlLikeGo_eq_sqlLike _ _ _ (by simp)]

theorem sqlLike_escaped (e : Char) (p s : List Char) :
    sqlLike ('\\' :: e :: p) s
      = (match s with
         | [] => false
         | d :: s2 => (likeFold e == likeFold d) && sqlLike p s2) := by
  cases s with
  | nil => rfl
  | cons d s2 =>
    show ((likeFold e == likeFold d)
        && sqlLikeGo (('\\' :: e :: p).length + (d :: s2).length) p s2)
      = ((likeFold e == likeFold d) && sqlLike p s2)
    rw [sqlLikeGo_eq_sqlLike _ _ _ (by simp only [List.length_cons]; omega)]

theorem sqlLike_char (c : Char) (p s : List Char)
    (h1 : (c == '%') = false) (h2 : (c == '_') = false)
    (h3 : (c == '\\') = false) :
    sqlLike (c :: p) s
      = (match s with
         | [] => false
         | d :: s2 => (likeFold c == likeFold d) && sqlLike p s2) := by
  show sqlLikeGo ((c :: p).length + s.length + 1) (c :: p) s = _
  simp only [sqlLikeGo]
  rw [if_neg (by simp [h1]), if_neg (by simp [h2]), if_neg (by simp [h3])]
  cases s with
  | nil => rfl
  | cons d s2 =>
    show ((likeFold c == likeFold d)
        && sqlLikeGo ((c :: p).length + (d :: s2).length) p s2)
      = ((likeFold c == likeFold d) && sqlLike p s2)
    rw [sqlLikeGo_eq_sqlLike _ _ _ (by simp only [List.length_cons]; omega)]

theorem sqlLike_percent_all (t : List Char) : sqlLike ['%'] t = true := by
  induction t with
  | nil => rfl
  | cons d t2 ih =>
    rw [sqlLike_percent]
    simp [ih]

theorem sqlLike_percent_iff (p : List Char) (s : List Char) :
    sqlLike ('%' :: p) s = true
      ↔ ∃ u t, s = u ++ t ∧ sqlLike p t = true := by
  induction s with
  | nil =>
    rw [sqlLike_percent]
    simp only [Bool.or_false]
    constructor
    · intro h
      exact ⟨[], [], rfl, h⟩
    · rintro ⟨u, t, hs, ht⟩
      obtain ⟨rfl, rfl⟩ := List.append_eq_nil.mp hs.symm
      exact ht
  | cons d s2 ih =>
    rw [sqlLike_percent]
    simp only [Bool.or_eq_true]
    constructor
    · rintro (h | h)
      · exact ⟨[], d :: s2, rfl, h⟩
      · obtain ⟨u, t, rfl, ht⟩ := ih.mp h
        exact ⟨d :: u, t, rfl, ht⟩
    · rintro ⟨u, t, hs, ht⟩
      cases u with
      | nil =>
        simp only [List.nil_append] at hs
        subst hs
        exact Or.inl ht
      | cons a u2 =>
        simp only [List.cons_append, List.cons.injEq] at hs
        obtain ⟨rfl, rfl⟩ := hs
        exact Or.inr (ih.mpr ⟨u2, t, rfl, ht⟩)

theorem sqlLike_escL_cons (c : Char) (q p s : List Char) :
    sqlLike (escL (c :: q) ++ p) s
      = (match s with
         | [] => false
         | d :: s2 => (likeFold c == likeFold d)
             && sqlLike (escL q ++ p) s2) := by
  by_cases hc : (c == '\\' || c == '%' || c == '_') = true
  · have : escL (c :: q) = '\\' :: c :: escL q := by
      simp only [escL, if_pos hc]
    rw [this, List.cons_append, List.cons_append, sqlLike_escaped]
  · have : escL (c :: q) = c :: escL q := by
      simp only [escL, if_neg hc]
    simp only [Bool.or_eq_true, not_or] at hc
    rw [this, List.cons_append,
      sqlLike_char c _ s (by simpa using hc.1.2) (by simpa using hc.2)
        (by simpa using hc.1.1)]

theorem sqlLike_escL_iff (q : List Char) : ∀ (p s : List Char),
    sqlLike (escL q ++ p) s = true
      ↔ ∃ v t, s = v ++ t ∧ ciEqL v q = true ∧ sqlLike p t = true := by
  induction q with
  | nil =>
    intro p s
    constructor
    · intro h
      exact ⟨[], s, rfl, rfl, h⟩
    · rintro ⟨v, t, rfl, hv, ht⟩
      cases v with
      | nil => exact ht
      | cons a v2 => simp [ciEqL] at hv
  | cons c q2 ih =>
    intro p s
    rw [sqlLike_escL_cons]
    cases s with
    | nil =>
      constructor
      · intro h
        exact absurd h (by simp)
      · rintro ⟨v, t, hs, hv, ht⟩
        obtain ⟨rfl, rfl⟩ := List.append_eq_nil.mp hs.symm
        simp [ciEqL] at hv
    | cons d s2 =>
      simp only [Bool.and_eq_true]
      constructor
      · rintro ⟨hfold, h2⟩
        obtain ⟨v, t, rfl, hv, ht⟩ := (ih p s2).mp h2
        refine ⟨d :: v, t, rfl, ?_, ht⟩
        simp only [ciEqL, Bool.and_eq_true]
        constructor
        · simpa using (by simpa using hfold : likeFold c = likeFold d).symm
        · exact hv
      · rintro ⟨v, t, hs, hv, ht⟩
        cases v with
        | nil => simp [ciEqL] at hv
        | cons a v2 =>
          simp only [List.cons_append, List.cons.injEq] at hs
          obtain ⟨hda, hst⟩ := hs
          simp only [ciEqL, Bool.and_eq_true] at hv
          subst hda
          refine ⟨?_, (ih p s2).mpr ⟨v2, t, hst, hv.2, ht⟩⟩
          simpa using (by simpa using hv.1 : likeFold d = likeFold c).symm

theorem ciEqL_length (v q : List Char) (h : ciEqL v q = true) :
    v.length = q.length := by
  induction v generalizing q with
  | nil => cases q with
    | nil => rfl
    | cons b bs => simp [ciEqL] at h
  | cons a as2 ih =>
    cases q with
    | nil => simp [ciEqL] at h
    | cons b bs =>
      simp only [ciEqL, Bool.and_eq_true] at h
      simp [ih bs h.2]

theorem hasPrefCI_iff (needle t : List Char) :
    hasPrefCI needle t = true
      ↔ ∃ v w, t = v ++ w ∧ ciEqL v needle = true := by
  constructor
  · intro h
    exact ⟨t.take needle.length, t.drop needle.length,
      (List.take_append_drop needle.length t).symm, h⟩
  · rintro ⟨v, w, rfl, hv⟩
    have hl := ciEqL_length v needle hv
    unfold hasPrefCI
    rw [← hl, List.take_left]
    exact hv

theorem containsCIL_iff (hay needle : List Char) :
    containsCIL hay needle = true
      ↔ ∃ u v w, hay = u ++ v ++ w ∧ ciEqL v needle = true := by
  induction hay with
  | nil =>
    simp only [containsCIL]
    rw [hasPrefCI_iff]
    constructor
    · rintro ⟨v, w, hs, hv⟩
      exact ⟨[], v, w, by simpa using hs, hv⟩
    · rintro ⟨u, v, w, hs, hv⟩
      refine ⟨v, w, ?_, hv⟩
      have := List.append_eq_nil.mp hs.symm
      obtain ⟨h1, rfl⟩ := this
      obtain ⟨rfl, rfl⟩ := List.append_eq_nil.mp h1
      rfl
  | cons c rest ih =>
    simp only [containsCIL, Bool.or_eq_true]
    rw [hasPrefCI_iff, ih]
    constructor
    · rintro (⟨v, w, hs, hv⟩ | ⟨u, v, w, hs, hv⟩)
      · exact ⟨[], v, w, by simpa using hs, hv⟩
      · exact ⟨c :: u, v, w, by simp [hs], hv⟩
    · rintro ⟨u, v, w, hs, hv⟩
      cases u with
      | nil =>
        exact Or.inl ⟨v, w, by simpa using hs, hv⟩
      | cons a u2 =>
        simp only [List.cons_append, List.cons.injEq] at hs
        exact Or.inr ⟨u2, v, w, hs.2, hv⟩

theorem replaceGo_single (p0 : Char) (rep : List Char) :
    ∀ (fuel : Nat) (s : List Char), s.length ≤ fuel →
      replaceGo [p0] rep fuel s = replaceChar p0 rep s := by
  intro fuel
  induction fuel with
  | zero =>
    intro s hs
    rw [Nat.le_zero, List.length_eq_zero] at hs
    subst hs
    rfl
  | succ fuel ih =>
    intro s hs
    cases s with
    | nil => rfl
    | cons c rest =>
      simp only [List.length_cons] at hs
      have hbeq : (hasPref [p0] (c :: rest)) = (c == p0) := by
        simp [hasPref]
      simp only [replaceGo, replaceChar, hbeq]
      by_cases hc : (c == p0) = true
      · rw [if_pos hc, if_pos hc]
        simp only [List.length_cons, List.length_nil, List.drop_succ_cons,
          List.drop_zero]
        rw [ih rest (by omega)]
      · rw [if_neg hc, if_neg hc]
        rw [ih rest (by omega)]
        rfl

theorem replaceChar_escL (s : List Char) :
    replaceChar '_' ['\\', '_']
      (replaceChar '%' ['\\', '%']
        (replaceChar '\\' ['\\', '\\'] s)) = escL s := by
  induction s with
  | nil => rfl
  | cons c rest ih =>
    by_cases h1 : (c == '\\') = true
    · have hc : c = '\\' := by simpa using h1
      subst hc
      simp [replaceChar, escL, ih]
    · by_cases h2 : (c == '%') = true
      · have hc : c = '%' := by simpa using h2
        subst hc
        simp [replaceChar, escL, ih]
      · by_cases h3 : (c == '_') = true
        · have hc : c = '_' := by simpa using h3
          subst hc
          simp [replaceChar, escL, ih]
        · simp [replaceChar, escL, h1, h2, h3, ih]

theorem sanitizedOf_data (q : String) :
    (sanitizedOf q).data = escL q.data := by
  show (pyReplace (pyReplace (pyReplace q ("\\") ("\\\\")) ("%") ("\\%"))
      ("_") ("\\_")).data = escL q.data
  simp only [pyReplace]
  rw [replaceGo_single _ _ _ _ le_rfl, replaceGo_single _ _ _ _ le_rfl,
    replaceGo_single _ _ _ _ le_rfl]
  exact replaceChar_escL q.data

theorem searchPattern_data (q : String) :
    (searchPattern q).data = '%' :: (escL q.data ++ ['%']) := by
  show ("%" ++ sanitizedOf q ++ "%").data = _
  rw [String.data_append, String.data_append, sanitizedOf_data]
  rfl

theorem searchPattern_matches (q content : String) :
    sqlLike (searchPattern q).data content.data = true
      ↔ containsCI content q = true := by
  rw [searchPattern_data, sqlLike_percent_iff]
  unfold containsCI
  rw [containsCIL_iff]
  constructor
  · rintro ⟨u, t, hs, ht⟩
    obtain ⟨v, w, rfl, hv, hw⟩ := (sqlLike_escL_iff q.data ['%'] t).mp ht
    exact ⟨u, v, w, by simp [hs], hv⟩
  · rintro ⟨u, v, w, hs, hv⟩
    refine ⟨u, v ++ w, by simpa using hs, ?_⟩
    exact (sqlLike_escL_iff q.data ['%'] (v ++ w)).mpr
      ⟨v, w, rfl, hv, sqlLike_percent_all w⟩

theorem sanitize_like_pattern_ok (query : String)
    (h : query.length ≤ MAX_QUERY_LENGTH) :
    sanitize_like_pattern query = .ok (sanitizedOf query) := by
  by_cases he : query = ""
  · subst he
    rfl
  · simp only [sanitize_like_pattern]
    rw [if_neg (by simpa using he), if_neg (by omega)]
    rfl

/-- C8 (amended): the LIKE pattern built by `sanitize_like_pattern` and
`search_messages` treats `%`, `_` and `\` in the query as literal text,
but SQLite's LIKE folds ASCII case: a stored message matches the query
exactly when its content contains the query as a substring *up to ASCII
case*, not only when it contains the literal query substring; in
particular every row returned by `search_messages` contains the query
up to ASCII case, and the query `100%` does not match content
`1000x`. -/
theorem C8_search_matches_ci_substring :
    (∀ (q content : String),
      sqlLike (searchPattern q).data content.data = true
        ↔ containsCI content q = true)
    ∧ (∀ db (q : String) ff limit rows r, q.length ≤ MAX_QUERY_LENGTH →
        search_messages db q ff limit = .ok rows → r ∈ rows →
        containsCI r.content q = true)
    ∧ sqlLike (searchPattern ("100%")).data ("1000x").data = false := by
  refine ⟨searchPattern_matches, ?_, by decide⟩
  intro db q ff limit rows r hlen hok hmem
  simp only [search_messages, sanitize_like_pattern_ok q hlen] at hok
  split at hok
  · exact absurd hok (by simp)
  · simp only [Except.ok.injEq] at hok
    subst hok
    have hsorted := List.mem_of_mem_take hmem
    have hhits := (List.perm_insertionSort tsDescOrder _).mem_iff.mp hsorted
    have hcond := (List.mem_filter.mp hhits).2
    simp only [Bool.and_eq_true] at hcond
    exact (searchPattern_matches q r.content).mp hcond.1

theorem C8_search_matches_ci_substring_witness :
    containsCI ("%A") ("%a") = true :=
  C8_search_matches_ci_substring.2.1 exSearchDb ("%a") none (.int 100)
    [exRowPercentA] exRowPercentA (by decide) rfl
    (List.mem_singleton.mpr rfl)

/-- C8 (counterexample): the query `%a` contains the LIKE special
character `%`; the stored message with content `%A` is returned by
`search_messages` for that query although `%A` does not contain the
literal substring `%a` — SQLite LIKE is ASCII case-insensitive, so
"matches only the literal query text" fails as stated. -/
theorem C8_percent_query_matches_other_case :
    search_messages exSearchDb ("%a") none (.int 100) = .ok [exRowPercentA]
    ∧ pyContains ("%A") ("%a") = false := by
  exact ⟨rfl, by decide⟩

theorem downFirst_eq_none_iff (f : Nat → Option Nat) :
    ∀ n, downFirst f n = none ↔ ∀ i ≤ n, f i = none := by
  intro n
  induction n with
  | zero =>
    constructor
    · intro h i hi
      exact (Nat.le_zero.mp hi) ▸ h
    · intro h
      exact h 0 le_rfl
  | succ n ih =>
    constructor
    · intro h i hi
      simp only [downFirst] at h
      cases hf : f (n + 1) with
      | some r => rw [hf] at h; exact absurd h (by simp)
      | none =>
        rw [hf] at h
        rcases Nat.lt_or_ge i (n + 1) with hlt | hge
        · exact (ih.mp h) i (by omega)
        · have hieq : i = n + 1 := by omega
          subst hieq
          exact hf
    · intro h
      simp only [downFirst]
      rw [h (n + 1) le_rfl]
      exact ih.mpr (fun i hi => h i (by omega))

theorem downFirst_spec (f : Nat → Option Nat) :
    ∀ (n r : Nat), downFirst f n = some r →
      ∃ i, i ≤ n ∧ f i = some r ∧ ∀ j, i < j → j ≤ n → f j = none := by
  intro n
  induction n with
  | zero =>
    intro r h
    exact ⟨0, le_rfl, h, fun j h1 h2 => by omega⟩
  | succ n ih =>
    intro r h
    simp only [downFirst] at h
    cases hf : f (n + 1) with
    | some r2 =>
      rw [hf] at h
      refine ⟨n + 1, le_rfl, ?_, fun j h1 h2 => by omega⟩
      rw [hf]
      simpa using h
    | none =>
      rw [hf] at h
      obtain ⟨i, hi, hfi, hj⟩ := ih r h
      refine ⟨i, by omega, hfi, fun j h1 h2 => ?_⟩
      rcases Nat.lt_or_ge j (n + 1) with hlt | hge
      · exact hj j h1 (by omega)
      · have hjeq : j = n + 1 := by omega
        subst hjeq
        exact hf

theorem head?_dropWhile_not (p : Char → Bool) (l : List Char) :
    ∀ c, (l.dropWhile p).head? = some c → p c = false := by
  induction l with
  | nil => intro c h; simp at h
  | cons a t ih =>
    intro c h
    by_cases hp : p a = true
    · rw [List.dropWhile_cons_of_pos hp] at h
      exact ih c h
    · rw [List.dropWhile_cons_of_neg hp] at h
      simp only [List.head?_cons, Option.some.injEq] at h
      subst h
      simpa using hp

theorem takeWhile_append_of_all (p : Char → Bool) (w r : List Char)
    (hw : ∀ c ∈ w, p c = true) :
    (w ++ r).takeWhile p = w ++ r.takeWhile p := by
  induction w with
  | nil => simp
  | cons a t ih =>
    simp only [List.cons_append]
    rw [List.takeWhile_cons_of_pos (hw a (List.mem_cons_self a t))]
    rw [ih (fun c hc => hw c (List.mem_cons_of_mem a hc))]

theorem takeWhile_eq_nil_of_head (p : Char → Bool) (r : List Char)
    (hr : ∀ c, r.head? = some c → p c = false) : r.takeWhile p = [] := by
  cases r with
  | nil => rfl
  | cons a t =>
    rw [List.takeWhile_cons_of_neg]
    simp [hr a rfl]

/-- On positions inside (or just past) the whitespace run, the head of
`t.drop i` is a newline exactly when the head of the run's own drop
is. -/
theorem bridge_head (t : List Char) (i : Nat)
    (hi : i ≤ (t.takeWhile isSpace).length) :
    ((t.drop i).head? = some '\n')
      ↔ (((t.takeWhile isSpace).drop i).head? = some '\n') := by
  conv_lhs => rw [← List.takeWhile_append_dropWhile (p := isSpace) (l := t)]
  rw [List.drop_append_of_le_length hi]
  cases hcase : (t.takeWhile isSpace).drop i with
  | nil =>
    simp only [List.nil_append, List.head?_nil]
    constructor
    · intro hc
      have := head?_dropWhile_not isSpace t '\n' hc
      simp [isSpace] at this
    · intro hc
      simp at hc
  | cons a tl => simp

/-- Inside the whitespace run, dropping and then taking whitespace is
dropping within the run. -/
theorem bridge_run (t : List Char) (i : Nat)
    (hi : i ≤ (t.takeWhile isSpace).length) :
    (t.drop i).takeWhile isSpace = (t.takeWhile isSpace).drop i := by
  conv_lhs => rw [← List.takeWhile_append_dropWhile (p := isSpace) (l := t)]
  rw [List.drop_append_of_le_length hi]
  rw [takeWhile_append_of_all _ _ _
    (fun c hc => List.mem_takeWhile_imp (List.mem_of_mem_drop hc))]
  rw [takeWhile_eq_nil_of_head _ _ (head?_dropWhile_not isSpace t)]
  simp

theorem pick_one (w : List Char) (h : 1 ≤ w.count '\n') :
    ∃ j, j < w.length ∧ (w.drop j).head? = some '\n' := by
  have hmem : '\n' ∈ w := List.count_pos_iff.mp h
  obtain ⟨i, hlen, hget⟩ := List.mem_iff_getElem.mp hmem
  refine ⟨i, hlen, ?_⟩
  rw [List.head?_drop]
  simp [List.getElem?_eq_getElem hlen, hget]

theorem pick_two (w : List Char) (h : 2 ≤ w.count '\n') :
    ∃ i, i < w.length ∧ (w.drop i).head? = some '\n'
      ∧ 1 ≤ (w.drop (i + 1)).count '\n' := by
  induction w with
  | nil => simp at h
  | cons c tl ih =>
    by_cases hc : c = '\n'
    · subst hc
      refine ⟨0, by simp, by simp, ?_⟩
      simp only [List.drop_succ_cons, List.drop_zero]
      have := List.count_cons_self '\n' tl
      omega
    · rw [List.count_cons_of_ne (by simpa using (Ne.symm hc)) tl] at h
      obtain ⟨i, h1, h2, h3⟩ := ih h
      exact ⟨i + 1, by simpa using h1, by simpa using h2, by simpa using h3⟩

theorem count_split_at_nl (w : List Char) (i : Nat)
    (h : (w.drop i).head? = some '\n') :
    w.count '\n' = (w.take i).count '\n' + 1 + (w.drop (i + 1)).count '\n' := by
  have hw : w = w.take i ++ w.drop i := (List.take_append_drop i w).symm
  have hdrop : w.drop i = '\n' :: w.drop (i + 1) := by
    cases hcase : w.drop i with
    | nil => rw [hcase] at h; simp at h
    | cons a tl =>
      rw [hcase] at h
      simp only [List.head?_cons, Option.some.injEq] at h
      subst h
      have htl : tl = w.drop (i + 1) := by
        rw [← List.tail_drop, hcase]
        rfl
      rw [htl]
  conv_lhs => rw [hw, hdrop]
  rw [List.count_append]
  simp [List.count_cons]
  omega

theorem head?_some_mem (l : List Char) (c : Char) (h : l.head? = some c) :
    c ∈ l := by
  cases l with
  | nil => simp at h
  | cons a t =>
    simp only [List.head?_cons, Option.some.injEq] at h
    subst h
    exact List.mem_cons_self a t

theorem matchNl3_nl (t : List Char) :
    matchNl3 ('\n' :: t) = (greedyTail t).map (fun n => n + 1) := rfl

theorem matchNl3_not_nl (c : Char) (t : List Char) (hc : ¬ c = '\n') :
    matchNl3 (c :: t) = none := by
  unfold matchNl3
  split
  · next t2 heq =>
    injection heq with h1 h2
    exact absurd h1 hc
  · rfl

theorem matchNl3_nil : matchNl3 [] = none := rfl

theorem matchNl3_none_iff (t : List Char) :
    matchNl3 ('\n' :: t) = none ↔ (t.takeWhile isSpace).count '\n' < 2 := by
  rw [matchNl3_nl, Option.map_eq_none']
  constructor
  · intro h
    by_contra hcnt
    push_neg at hcnt
    obtain ⟨i, hilt, hhead, hcnt1⟩ := pick_two _ hcnt
    unfold greedyTail at h
    have hnone := (downFirst_eq_none_iff _ _).mp h i (by omega)
    simp only [] at hnone
    have hcond : ((t.drop i).head? == some '\n') = true := by
      rw [beq_iff_eq]
      exact (bridge_head t i (by omega)).mpr hhead
    rw [if_pos hcond, Option.map_eq_none'] at hnone
    obtain ⟨j, hjlt, hjhead⟩ := pick_one _ hcnt1
    have hw2 := bridge_run t (i + 1) (by omega)
    have hgnone := (downFirst_eq_none_iff _ _).mp hnone j
      (by rw [hw2]; omega)
    simp only [] at hgnone
    have hgcond : (((t.drop (i + 1)).drop j).head? == some '\n') = true := by
      rw [beq_iff_eq]
      rw [bridge_head (t.drop (i + 1)) j (by rw [hw2]; omega), hw2]
      exact hjhead
    rw [if_pos hgcond] at hgnone
    exact absurd hgnone (by simp)
  · intro hcnt
    unfold greedyTail
    rw [downFirst_eq_none_iff]
    intro i hi
    by_cases hcond : ((t.drop i).head? == some '\n') = true
    · rw [if_pos hcond, Option.map_eq_none']
      have hheadi : ((t.takeWhile isSpace).drop i).head? = some '\n' :=
        (bridge_head t i hi).mp (beq_iff_eq.mp hcond)
      have hilt : i < (t.takeWhile isSpace).length := by
        by_contra hge
        rw [List.drop_eq_nil_of_le (by omega)] at hheadi
        simp at hheadi
      unfold greedyWsNl
      rw [downFirst_eq_none_iff]
      intro j hj
      by_cases hgc : (((t.drop (i + 1)).drop j).head? == some '\n') = true
      · exfalso
        have hw2 := bridge_run t (i + 1) (by omega)
        rw [hw2] at hj
        have hheadj : ((((t.takeWhile isSpace)).drop (i + 1)).drop j).head?
            = some '\n' := by
          have hb := (bridge_head (t.drop (i + 1)) j
            (by rw [hw2]; omega)).mp (beq_iff_eq.mp hgc)
          rw [hw2] at hb
          exact hb
        have h1 : 1 ≤ ((t.takeWhile isSpace).drop (i + 1)).count '\n' := by
          have hmem : '\n' ∈ ((t.takeWhile isSpace).drop (i + 1)).drop j :=
            head?_some_mem _ _ hheadj
          have hmem2 : '\n' ∈ (t.takeWhile isSpace).drop (i + 1) :=
            List.mem_of_mem_drop hmem
          exact List.count_pos_iff.mpr hmem2
        have hsplit := count_split_at_nl (t.takeWhile isSpace) i hheadi
        omega
      · rw [if_neg hgc]
    · rw [if_neg hcond]

theorem matchNl3_some_spec (t : List Char) (n : Nat)
    (h : matchNl3 ('\n' :: t) = some n) :
    1 ≤ n ∧ ((('\n' :: t).drop n).takeWhile isSpace).count '\n' = 0 := by
  rw [matchNl3_nl, Option.map_eq_some'] at h
  obtain ⟨m, hm, rfl⟩ := h
  refine ⟨by omega, ?_⟩
  unfold greedyTail at hm
  obtain ⟨i, hi, hfi, hlater⟩ := downFirst_spec _ _ _ hm
  by_cases hcond : ((t.drop i).head? == some '\n') = true
  · rw [if_pos hcond, Option.map_eq_some'] at hfi
    obtain ⟨m2, hm2, hm2eq⟩ := hfi
    have hheadi : ((t.takeWhile isSpace).drop i).head? = some '\n' :=
      (bridge_head t i hi).mp (beq_iff_eq.mp hcond)
    have hilt : i < (t.takeWhile isSpace).length := by
      by_contra hge
      rw [List.drop_eq_nil_of_le (by omega)] at hheadi
      simp at hheadi
    have hw2 := bridge_run t (i + 1) (by omega)
    unfold greedyWsNl at hm2
    obtain ⟨j, hj, hgj, hglater⟩ := downFirst_spec _ _ _ hm2
    rw [hw2] at hj
    by_cases hgc : (((t.drop (i + 1)).drop j).head? == some '\n') = true
    · rw [if_pos hgc] at hgj
      simp only [Option.some.injEq] at hgj
      have hheadj : (((t.takeWhile isSpace).drop (i + 1)).drop j).head?
          = some '\n' := by
        have hb := (bridge_head (t.drop (i + 1)) j
          (by rw [hw2]; omega)).mp (beq_iff_eq.mp hgc)
        rw [hw2] at hb
        exact hb
      have hjlt : j < ((t.takeWhile isSpace).drop (i + 1)).length := by
        by_contra hge
        rw [List.drop_eq_nil_of_le (by omega)] at hheadj
        simp at hheadj
      -- the matched length is i + j + 3; the remainder starts right
      -- after the last newline of the run
      have hdropn : ('\n' :: t).drop (m + 1) = (t.drop (i + 1)).drop (j + 1) := by
        rw [List.drop_succ_cons, List.drop_drop]
        congr 1
        omega
      rw [hdropn]
      rw [bridge_run (t.drop (i + 1)) (j + 1) (by rw [hw2]; omega)]
      rw [hw2]
      rw [List.count_eq_zero]
      intro hmem
      obtain ⟨k0, hk0, hget⟩ := List.mem_iff_getElem.mp hmem
      have hlenW : (((t.takeWhile isSpace).drop (i + 1)).drop (j + 1)).length
          = ((t.takeWhile isSpace).drop (i + 1)).length - (j + 1) :=
        List.length_drop _ _
      have hheadk : (((t.takeWhile isSpace).drop (i + 1)).drop (j + 1 + k0)).head?
          = some '\n' := by
        rw [List.head?_drop]
        have h2 : (((t.takeWhile isSpace).drop (i + 1)).drop (j + 1))[k0]?
            = some '\n' := by
          rw [List.getElem?_eq_getElem hk0, hget]
        rw [List.getElem?_drop] at h2
        exact h2
      have hk : j + 1 + k0 < ((t.takeWhile isSpace).drop (i + 1)).length := by
        omega
      have hgk := hglater (j + 1 + k0) (by omega) (by rw [hw2]; omega)
      rw [if_pos ?_] at hgk
      · exact absurd hgk (by simp)
      · rw [beq_iff_eq]
        rw [bridge_head (t.drop (i + 1)) (j + 1 + k0) (by rw [hw2]; omega),
          hw2]
        exact hheadk
    · rw [if_neg hgc] at hgj
      exact absurd hgj (by simp)
  · rw [if_neg hcond] at hfi
    exact absurd hfi (by simp)


theorem collapseGo_takeWhile (fuel : Nat) : ∀ (t : List Char),
    (t.takeWhile isSpace).count '\n' ≤ 1 →
    (collapseGo fuel t).takeWhile isSpace = t.takeWhile isSpace := by
  induction fuel with
  | zero => intro t h; rfl
  | succ fuel ih =>
    intro t h
    cases t with
    | nil => rfl
    | cons c t2 =>
      by_cases hsp : isSpace c = true
      · by_cases hnl : c = '\n'
        · subst hnl
          rw [List.takeWhile_cons_of_pos (by decide)] at h
          have h0 : (t2.takeWhile isSpace).count '\n' = 0 := by
            have := List.count_cons_self '\n' (t2.takeWhile isSpace)
            omega
          have hnone : matchNl3 ('\n' :: t2) = none :=
            (matchNl3_none_iff t2).mpr (by omega)
          simp only [collapseGo, hnone]
          rw [List.takeWhile_cons_of_pos (by decide),
            List.takeWhile_cons_of_pos (by decide)]
          rw [ih t2 (by omega)]
        · have hnone : matchNl3 (c :: t2) = none := matchNl3_not_nl c t2 hnl
          simp only [collapseGo, hnone]
          rw [List.takeWhile_cons_of_pos hsp, List.takeWhile_cons_of_pos hsp]
          rw [List.takeWhile_cons_of_pos hsp] at h
          have h2 : (t2.takeWhile isSpace).count '\n' ≤ 1 := by
            rw [List.count_cons_of_ne (by simpa using Ne.symm hnl)] at h
            exact h
          rw [ih t2 h2]
      · have hnl : ¬ c = '\n' := by
          intro hc
          subst hc
          simp [isSpace] at hsp
        have hnone : matchNl3 (c :: t2) = none := matchNl3_not_nl c t2 hnl
        simp only [collapseGo, hnone]
        rw [List.takeWhile_cons_of_neg (by simpa using hsp),
          List.takeWhile_cons_of_neg (by simpa using hsp)]

theorem mem_collapseGo (fuel : Nat) : ∀ (t : List Char) (c : Char),
    c ∈ collapseGo fuel t → c ∈ t ∨ c = '\n' := by
  induction fuel with
  | zero => intro t c hc; exact Or.inl hc
  | succ fuel ih =>
    intro t c hc
    cases t with
    | nil => simp [collapseGo] at hc
    | cons a t2 =>
      cases hm : matchNl3 (a :: t2) with
      | some n =>
        simp only [collapseGo, hm] at hc
        rcases List.mem_cons.mp hc with heq | hc2
        · exact Or.inr heq
        rcases List.mem_cons.mp hc2 with heq | hc3
        · exact Or.inr heq
        rcases ih _ c hc3 with hin | heq
        · exact Or.inl (List.drop_subset _ _ hin)
        · exact Or.inr heq
      | none =>
        simp only [collapseGo, hm] at hc
        rcases List.mem_cons.mp hc with heq | hc2
        · exact Or.inl (heq ▸ List.mem_cons_self a t2)
        rcases ih t2 c hc2 with hin | heq
        · exact Or.inl (List.mem_cons_of_mem a hin)
        · exact Or.inr heq

theorem collapseGo_eq_self (fuel : Nat) : ∀ (t : List Char),
    (∀ u, u <:+ t → matchNl3 u = none) → collapseGo fuel t = t := by
  induction fuel with
  | zero => intro t _; rfl
  | succ fuel ih =>
    intro t h
    cases t with
    | nil => rfl
    | cons a t2 =>
      have hm := h (a :: t2) List.suffix_rfl
      simp only [collapseGo, hm]
      rw [ih t2 (fun u hu => h u (hu.trans (List.suffix_cons a t2)))]

theorem collapseGo_noMatch (fuel : Nat) : ∀ (t : List Char), t.length ≤ fuel →
    ∀ u, u <:+ collapseGo fuel t → matchNl3 u = none := by
  induction fuel with
  | zero =>
    intro t ht u hu
    rw [Nat.le_zero, List.length_eq_zero] at ht
    subst ht
    have := List.suffix_nil.mp hu
    subst this
    rfl
  | succ fuel ih =>
    intro t ht u hu
    cases t with
    | nil =>
      have : u = [] := List.suffix_nil.mp hu
      subst this
      rfl
    | cons a t2 =>
      simp only [List.length_cons] at ht
      cases hm : matchNl3 (a :: t2) with
      | none =>
        simp only [collapseGo, hm] at hu
        rcases List.suffix_cons_iff.mp hu with heq | hsuf
        · subst heq
          by_cases hnl : a = '\n'
          · subst hnl
            rw [matchNl3_none_iff]
            have hcnt := (matchNl3_none_iff t2).mp hm
            rw [collapseGo_takeWhile fuel t2 (by omega)]
            omega
          · exact matchNl3_not_nl _ _ hnl
        · exact ih t2 (by omega) u hsuf
      | some n =>
        have hanl : a = '\n' := by
          by_contra hne
          rw [matchNl3_not_nl a t2 hne] at hm
          exact absurd hm (by simp)
        subst hanl
        obtain ⟨hn1, hcnt0⟩ := matchNl3_some_spec t2 n hm
        simp only [collapseGo, hm] at hu
        have hlen : (('\n' :: t2).drop n).length ≤ fuel := by
          rw [List.length_drop]
          simp only [List.length_cons]
          omega
        have htw : (collapseGo fuel (('\n' :: t2).drop n)).takeWhile isSpace
            = (('\n' :: t2).drop n).takeWhile isSpace :=
          collapseGo_takeWhile fuel _ (by omega)
        rcases List.suffix_cons_iff.mp hu with heq | hu2
        · subst heq
          rw [matchNl3_none_iff]
          rw [List.takeWhile_cons_of_pos (by decide), htw]
          have := List.count_cons_self '\n'
            ((('\n' :: t2).drop n).takeWhile isSpace)
          omega
        · rcases List.suffix_cons_iff.mp hu2 with heq | hu3
          · subst heq
            rw [matchNl3_none_iff, htw]
            omega
          · exact ih _ hlen u hu3

theorem takeWhile_take_comm (p : Char → Bool) : ∀ (t : List Char) (k : Nat),
    (t.take k).takeWhile p = (t.takeWhile p).take k := by
  intro t
  induction t with
  | nil => intro k; simp
  | cons c t2 ih =>
    intro k
    cases k with
    | zero => simp
    | succ k2 =>
      rw [List.take_succ_cons]
      by_cases hp : p c = true
      · rw [List.takeWhile_cons_of_pos hp, List.takeWhile_cons_of_pos hp,
          List.take_succ_cons, ih]
      · rw [List.takeWhile_cons_of_neg (by simpa using hp),
          List.takeWhile_cons_of_neg (by simpa using hp), List.take_nil]

theorem matchNl3_take_none (l : List Char) (m : Nat)
    (h : matchNl3 l = none) : matchNl3 (l.take m) = none := by
  cases l with
  | nil => rw [List.take_nil]; exact matchNl3_nil
  | cons a t =>
    by_cases hnl : a = '\n'
    · subst hnl
      cases m with
      | zero => exact matchNl3_nil
      | succ m2 =>
        rw [List.take_succ_cons]
        rw [matchNl3_none_iff] at h ⊢
        have hcle : ((t.take m2).takeWhile isSpace).count '\n'
            ≤ (t.takeWhile isSpace).count '\n' := by
          rw [takeWhile_take_comm]
          exact (List.take_sublist m2 _).count_le '\n'
        omega
    · cases m with
      | zero => exact matchNl3_nil
      | succ m2 =>
        rw [List.take_succ_cons]
        exact matchNl3_not_nl _ _ hnl

theorem suffix_stripL (l : List Char) (u : List Char) (hu : u <:+ stripL l) :
    ∃ v m, v <:+ l ∧ u = v.take m := by
  have hpref : stripL l <+: (l.dropWhile isSpace) := by
    refine List.reverse_suffix.mp ?_
    show (stripL l).reverse <:+ (l.dropWhile isSpace).reverse
    unfold stripL
    rw [List.reverse_reverse]
    exact List.dropWhile_suffix _
  have hk := List.prefix_iff_eq_take.mp hpref
  rw [hk] at hu
  obtain ⟨pre, hpre⟩ := hu
  refine ⟨(l.dropWhile isSpace).drop pre.length,
    (stripL l).length - pre.length,
    (List.drop_suffix _ _).trans (List.dropWhile_suffix _), ?_⟩
  have hu2 : u = ((l.dropWhile isSpace).take (stripL l).length).drop pre.length := by
    rw [← hpre, List.drop_left]
  rw [hu2, List.drop_take]

theorem head?_take (l : List Char) (k : Nat) (c : Char)
    (h : (l.take k).head? = some c) : l.head? = some c := by
  cases l with
  | nil => simp at h
  | cons a t =>
    cases k with
    | zero => simp at h
    | succ k2 =>
      rw [List.take_succ_cons] at h
      exact h

theorem dropWhile_eq_self_of_head (p : Char → Bool) (l : List Char)
    (h : ∀ c, l.head? = some c → p c = false) : l.dropWhile p = l := by
  cases l with
  | nil => rfl
  | cons a t =>
    rw [List.dropWhile_cons_of_neg (by simp [h a rfl])]

theorem stripL_head_not_space (l : List Char) :
    ∀ c, (stripL l).head? = some c → isSpace c = false := by
  intro c h
  have hpref : stripL l <+: l.dropWhile isSpace := by
    refine List.reverse_suffix.mp ?_
    show (stripL l).reverse <:+ (l.dropWhile isSpace).reverse
    unfold stripL
    rw [List.reverse_reverse]
    exact List.dropWhile_suffix _
  rw [List.prefix_iff_eq_take.mp hpref] at h
  exact head?_dropWhile_not _ _ c (head?_take _ _ _ h)

theorem stripL_idem (l : List Char) : stripL (stripL l) = stripL l := by
  have step1 : (stripL l).dropWhile isSpace = stripL l :=
    dropWhile_eq_self_of_head _ _ (stripL_head_not_space l)
  show (((stripL l).dropWhile isSpace).reverse.dropWhile isSpace).reverse
      = stripL l
  rw [step1]
  have hrev : (stripL l).reverse = (l.dropWhile isSpace).reverse.dropWhile isSpace := by
    unfold stripL
    rw [List.reverse_reverse]
  rw [hrev, dropWhile_eq_self_of_head _ _ (head?_dropWhile_not isSpace _), ← hrev,
    List.reverse_reverse]

theorem mem_stripL (l : List Char) (c : Char) (h : c ∈ stripL l) : c ∈ l := by
  unfold stripL at h
  rw [List.mem_reverse] at h
  have h2 := (List.dropWhile_suffix isSpace).subset h
  rw [List.mem_reverse] at h2
  exact (List.dropWhile_suffix isSpace).subset h2

theorem removeTagGo_id (o c : List Char) (fuel : Nat) : ∀ (s : List Char),
    '<' ∉ s → removeTagGo ('<' :: o) c fuel s = s := by
  induction fuel with
  | zero => intro s _; rfl
  | succ fuel ih =>
    intro s hs
    cases s with
    | nil => rfl
    | cons a rest =>
      have ha : a ≠ '<' := fun hc => hs (hc ▸ List.mem_cons_self a rest)
      have hpf : hasPref ('<' :: o) (a :: rest) = false := by
        simp only [hasPref, List.length_cons, List.take_succ_cons,
          List.cons_beq_cons]
        rw [Bool.and_eq_false_iff]
        exact Or.inl (by simpa using ha)
      simp only [removeTagGo, hpf, Bool.false_eq_true, if_false]
      rw [ih rest (fun hc => hs (List.mem_cons_of_mem a hc))]

theorem removeTag_id (tag : String) (s : List Char) (h : '<' ∉ s) :
    removeTag tag s = s := by
  show removeTagGo (('<' :: tag.data) ++ ['>']) _ s.length s = s
  rw [List.cons_append]
  exact removeTagGo_id _ _ _ s h

/-- C6 counterexample: `clean_text` is not idempotent.  Removing the
`system-reminder` region of `exSplice` splices together a
`command-message` region that only a second pass removes, so cleaning a
cleaned string changes it again. -/
theorem C6_splice_not_idempotent :
    clean_text (clean_text exSplice) ≠ clean_text exSplice := by decide

/-- C6 (amended): on every string free of the character `<` — so that
none of the four markup-removal substitutions of `clean_text` can fire —
`clean_text` is idempotent: blank-line collapsing leaves no residual
three-newline run and stripping is idempotent. -/
theorem C6_clean_text_idempotent (s : String)
    (h : ∀ c ∈ s.data, c ≠ '<') :
    clean_text (clean_text s) = clean_text s := by
  by_cases hs : s = ""
  · subst hs; rfl
  · have hlt : '<' ∉ s.data := fun hc => (h '<' hc) rfl
    have h1 : cleanTextL s.data = stripL (collapseBlank s.data) := by
      unfold cleanTextL
      rw [removeTag_id _ _ hlt, removeTag_id _ _ hlt, removeTag_id _ _ hlt,
        removeTag_id _ _ hlt]
    have hB : ∀ u, u <:+ collapseBlank s.data → matchNl3 u = none :=
      collapseGo_noMatch s.data.length s.data le_rfl
    have hcs : clean_text s = ⟨stripL (collapseBlank s.data)⟩ := by
      unfold clean_text
      rw [if_neg (by simpa using hs), h1]
    set z := stripL (collapseBlank s.data) with hzdef
    rw [hcs]
    by_cases hz0 : z = []
    · rw [hz0]; decide
    · have hzne : ¬ ((⟨z⟩ : String) == "") = true := by
        simp only [beq_iff_eq]
        intro hc
        exact hz0 (congrArg String.data hc)
      have hnoLt : '<' ∉ z := by
        intro hc
        have hcy := mem_stripL _ _ hc
        rcases mem_collapseGo s.data.length s.data '<' hcy with hin | heq
        · exact (h '<' hin) rfl
        · exact absurd heq (by decide)
      have hBz : ∀ u, u <:+ z → matchNl3 u = none := by
        intro u hu
        obtain ⟨v, m, hv, hveq⟩ := suffix_stripL _ u hu
        subst hveq
        exact matchNl3_take_none v m (hB v hv)
      show clean_text ⟨z⟩ = ⟨z⟩
      unfold clean_text
      rw [if_neg hzne]
      refine congrArg String.mk ?_
      show cleanTextL z = z
      unfold cleanTextL
      rw [removeTag_id _ _ hnoLt, removeTag_id _ _ hnoLt, removeTag_id _ _ hnoLt,
        removeTag_id _ _ hnoLt]
      show stripL (collapseGo z.length z) = z
      rw [collapseGo_eq_self z.length z hBz]
      rw [hzdef]
      exact stripL_idem _

/-- Witness: `C6_clean_text_idempotent` at the concrete `<`-free string
`"a\n\n\n\n b"` (which the collapsing and stripping passes do rewrite). -/
theorem C6_clean_text_idempotent_witness :
    clean_text (clean_text ("a\n\n\n\n b")) = clean_text ("a\n\n\n\n b") :=
  C6_clean_text_idempotent ("a\n\n\n\n b") (by decide)
